import Mathlib

/-!
Verification of the reconciliation and matching engine of `update_freebies.py`
(free-game offer pipeline): title normalization, match classification, snapshot
diffing, field-level merge, and the notification decisions of `main`.

Python data is modelled shallowly: a Python value is `Val`, a Python dict is an
insertion-ordered association list `Rec` with Python's dict semantics (lookup
returns the first binding; assignment updates in place or appends).  External
collaborators (the GamerPower feed, the IGDB HTTP lookup, Firestore, FCM
delivery, the wall clock) enter as explicit inputs of the model; the Unicode
data consulted by `unicodedata` / `str.lower` / `str.split` is modelled by
character tables restricted to the repertoire the pipeline manipulates (ASCII
plus the trademark/registered/copyright glyphs and the U+0300 combining block),
with every unlisted character left fixed.
-/

namespace Freebies

/-- Model of a Python value as stored in the pipeline's dict-shaped records. -/
inductive Val where
  | vnull
  | vbool (b : Bool)
  | vint (n : Int)
  | vstr (s : String)
  | vlist (l : List Val)
  | vdict (l : List (String × Val))

/-- A Python dict: insertion-ordered key/value bindings. -/
abbrev Rec := List (String × Val)

/-- Python `d.get(key)` / `d[key]`: the first binding of `key`. -/
def lookupK : Rec → String → Option Val
  | [], _ => none
  | (k, v) :: rest, key => if k = key then some v else lookupK rest key

/-- Python `key in d`. -/
def hasK (r : Rec) (k : String) : Bool := (lookupK r k).isSome

/-- Python `d.get(key, default)`. -/
def getD (r : Rec) (k : String) (d : Val) : Val := (lookupK r k).getD d

/-- Python `d[key] = v`: update the binding in place, else append. -/
def setK : Rec → String → Val → Rec
  | [], key, v => [(key, v)]
  | (k, w) :: rest, key, v =>
    if k = key then (k, v) :: rest else (k, w) :: setK rest key v

/-- Python `{**a, **b}`. -/
def dunion (a b : Rec) : Rec := b.foldl (fun acc kv => setK acc kv.1 kv.2) a

/-- Python truthiness of a value (`if x:`). -/
def truthy : Val → Bool
  | .vnull => false
  | .vbool b => b
  | .vint n => n ≠ 0
  | .vstr s => s ≠ ""
  | .vlist l => ¬ l.isEmpty
  | .vdict l => ¬ l.isEmpty

/-- Python `x in [None, "", [], {}]` (the merge policy's emptiness test). -/
def emptyLike : Val → Bool
  | .vnull => true
  | .vstr s => s = ""
  | .vlist l => l.isEmpty
  | .vdict l => l.isEmpty
  | _ => false

/-- Python `str(p)` for the value shapes that reach the platform check. -/
def pyStr : Val → String
  | .vint n => toString n
  | .vstr s => s
  | .vbool b => if b then "True" else "False"
  | .vnull => "None"
  | _ => ""

/-- The keys of a record. -/
def keysOf (r : Rec) : List String := r.map Prod.fst

/-- A record with no duplicate keys, as every real Python dict is. -/
def NodupKeys (r : Rec) : Prop := (keysOf r).Nodup

instance (r : Rec) : Decidable (NodupKeys r) := List.nodupDecidable _

/-! ### Character model

`normalize_title` runs `unicodedata.normalize("NFKD", ·)`, strips combining
marks, lower-cases, and substitutes punctuation.  The Unicode tables behind
those library calls are modelled on the repertoire the titles use: the NFKD
table holds the one compatibility decomposition the pipeline's own glyph set
exercises (U+2122 TRADE MARK SIGN → "TM"); combining marks are the
U+0300–U+036F block; lower-casing is the ASCII mapping; whitespace and
punctuation are the ASCII classes of `str.split` / `string.punctuation`.
Unlisted characters are fixed points, as in real Unicode they are for the
ASCII-plus-glyph repertoire of the feed titles. -/

/-- NFKD decomposition of one character (see the character-model note above). -/
def nfkdChar (c : Char) : List Char := if c = '™' then ['T', 'M'] else [c]

/-- `unicodedata.normalize("NFKD", s)`. -/
def nfkd (l : List Char) : List Char := l.flatMap nfkdChar

/-- `unicodedata.combining(ch) != 0`, modelled as the U+0300–U+036F block. -/
def isCombiningMark (c : Char) : Bool := 768 ≤ c.toNat && c.toNat ≤ 879

/-- ASCII lower-casing of one character (`str.lower` on this repertoire). -/
def lowerChar (c : Char) : Char :=
  if 65 ≤ c.toNat && c.toNat ≤ 90 then Char.ofNat (c.toNat + 32) else c

/-- The trademark/registered/copyright glyphs stripped by the title regex. -/
def isTmGlyph (c : Char) : Bool := c = '™' || c = '®' || c = '©'

/-- Membership in Python `string.punctuation` (ASCII 33–47, 58–64, 91–96, 123–126). -/
def isPunct (c : Char) : Bool :=
  (33 ≤ c.toNat && c.toNat ≤ 47) || (58 ≤ c.toNat && c.toNat ≤ 64) ||
  (91 ≤ c.toNat && c.toNat ≤ 96) || (123 ≤ c.toNat && c.toNat ≤ 126)

/-- Whitespace as split by `str.split()` (ASCII class). -/
def isWs (c : Char) : Bool :=
  c = ' ' || c = '\t' || c = '\n' || c = '\r' || c.toNat = 11 || c.toNat = 12

/-- ASCII digit (the `\d` class on this repertoire). -/
def isDigitCh (c : Char) : Bool := 48 ≤ c.toNat && c.toNat ≤ 57

/-- Python `t.replace("&", " and ")` at the character level. -/
def ampExpand : List Char → List Char
  | [] => []
  | c :: cs => (if c = '&' then ' ' :: 'a' :: 'n' :: 'd' :: [' '] else [c]) ++ ampExpand cs

/-- Maximal runs of characters not satisfying the separator predicate `p`
(`str.split()` with `p = isWs`; `re.findall` of runs with `p = not a digit`). -/
def wordsBy (p : Char → Bool) : List Char → List (List Char)
  | [] => []
  | [c] => if p c then [] else [[c]]
  | c :: d :: cs =>
    if p c then wordsBy p (d :: cs)
    else
      match wordsBy p (d :: cs) with
      | [] => [[c]]
      | w :: ws => if p d then [c] :: w :: ws else (c :: w) :: ws

/-- `re.findall(r"\d+", ·)`: the maximal digit runs. -/
def digitRuns (l : List Char) : List (List Char) := wordsBy (fun c => ¬ isDigitCh c) l

/-- The script's `_ROMAN_MAP` literal. -/
def romanTable : List (String × String) :=
  [("i", "1"), ("ii", "2"), ("iii", "3"), ("iv", "4"), ("v", "5"),
   ("vi", "6"), ("vii", "7"), ("viii", "8"), ("ix", "9"), ("x", "10"),
   ("xi", "11"), ("xii", "12"), ("xiii", "13"), ("xiv", "14"), ("xv", "15"),
   ("xvi", "16"), ("xvii", "17"), ("xviii", "18"), ("xix", "19"), ("xx", "20")]

/-- `_ROMAN_MAP.get(tok, tok)`. -/
def tokenMap (t : List Char) : List Char :=
  match romanTable.find? (fun kv => kv.1.data = t) with
  | some kv => kv.2.data
  | none => t

/-- `re.sub(r"\s+", " ", t).strip()`: whitespace runs collapse to one space and
the ends are trimmed, i.e. the words rejoined by single spaces. -/
def collapseWs (l : List Char) : List Char := List.intercalate [' '] (wordsBy isWs l)

/-- The character stages of `normalize_title` before tokenization: NFKD,
strip combining marks, lower-case, expand `&`, strip ™®©, punctuation to
spaces. -/
def preTokens (l : List Char) : List Char :=
  let t := nfkd l
  let t := t.filter (fun c => ¬ isCombiningMark c)
  let t := t.map lowerChar
  let t := ampExpand t
  let t := t.filter (fun c => ¬ isTmGlyph c)
  t.map (fun c => if isPunct c then ' ' else c)

/-- The token list of `normalize_title`: split on whitespace and map roman
numerals. -/
def normTokens (l : List Char) : List (List Char) :=
  (wordsBy isWs (preTokens l)).map tokenMap

/-- The script's `normalize_title` on the character list: the character
stages, tokenization, rejoining with single spaces, whitespace collapse. -/
def normalizeList (l : List Char) : List Char :=
  collapseWs (List.intercalate [' '] (normTokens l))

/-- A character that every stage of `normalize_title` leaves alone and that
the tokenizer keeps: not the trademark glyph NFKD rewrites, not a combining
mark, lower-case-fixed, not an ampersand, not a stripped glyph, not
punctuation, not whitespace. -/
def GoodCh (c : Char) : Prop :=
  c ≠ '™' ∧ isCombiningMark c = false ∧ lowerChar c = c ∧ c ≠ '&' ∧
  isTmGlyph c = false ∧ isPunct c = false ∧ isWs c = false

instance (c : Char) : Decidable (GoodCh c) := by unfold GoodCh; infer_instance

/-- A non-empty token all of whose characters are stage-fixed. -/
def GoodTok (t : List Char) : Prop := t ≠ [] ∧ ∀ c ∈ t, GoodCh c

instance (t : List Char) : Decidable (GoodTok t) := by unfold GoodTok; infer_instance

/-- `normalize_title(title)`. -/
def normalize_title (title : String) : String :=
  if title = "" then "" else String.mk (normalizeList title.data)

/-! ### Match classifier (`is_confusing_match` and the candidate checks) -/

/-- Whether `pat` occurs at the head of `l`. -/
def leadsWith : List Char → List Char → Bool
  | [], _ => true
  | _ :: _, [] => false
  | p :: ps, c :: cs => p = c && leadsWith ps cs

/-- Python substring test `pat in l`. -/
def containsSub (pat : List Char) : List Char → Bool
  | [] => pat.isEmpty
  | c :: cs => leadsWith pat (c :: cs) || containsSub pat cs

/-- The script's `_EDITION_KEYWORDS` literal. -/
def editionKeywords : List String :=
  ["remastered", "definitive", "goty", "complete", "hd",
   "ultimate", "anniversary", "collection", "trilogy", "bundle",
   "director", "redux", "reloaded", "remake"]

/-- `is_confusing_match(gp_title, igdb_name)`. -/
def is_confusing_match (gp_title igdb_name : String) : Bool :=
  let gp_norm := normalize_title gp_title
  let igdb_norm := normalize_title igdb_name
  if ¬ (digitRuns igdb_norm.data).isEmpty && (digitRuns gp_norm.data).isEmpty then true
  else
    editionKeywords.any fun kw =>
      containsSub kw.data igdb_norm.data && ¬ containsSub kw.data gp_norm.data

/-- The PC platform allow-list test of `fetch_igdb_data`:
`any(pid in [str(p) for p in platforms] for pid in ("6", "14", "92"))`. -/
def pcPlatformList (platforms : List Val) : Bool :=
  (platforms.map pyStr).any fun s => s = "6" || s = "14" || s = "92"

/-- Classifier verdict vocabulary of the specification. -/
inductive Verdict where
  | Match
  | Confusing
  | WrongPlatform
deriving DecidableEq

/-- The candidate-acceptance decision sequence of `fetch_igdb_data` (lines
199–208), lifted out as the spec's `classify`: confusing-match rejection
first, then the PC platform allow-list, else accept. -/
def classify (sourceTitle candidateName : String) (candidatePlatforms : List Val) : Verdict :=
  if is_confusing_match sourceTitle candidateName then .Confusing
  else if ¬ pcPlatformList candidatePlatforms then .WrongPlatform
  else .Match

/-! ### IGDB candidate transformation and the strict matcher -/

/-- Python `s.replace(pat, rep)` (all non-overlapping occurrences, left to
right; `skip` counts pattern characters still to be consumed after a match). -/
def replAux (pat rep : List Char) : List Char → Nat → List Char
  | [], _ => []
  | _ :: cs, k + 1 => replAux pat rep cs k
  | c :: cs, 0 =>
    if leadsWith pat (c :: cs) && ¬ pat.isEmpty then rep ++ replAux pat rep cs (pat.length - 1)
    else c :: replAux pat rep cs 0

/-- Python `s.replace(pat, rep)` on strings. -/
def pyReplace (s pat rep : String) : String :=
  String.mk (replAux pat.data rep.data s.data 0)

/-- `format_cover` inside `transform_igdb`. -/
def format_cover (url : String) : String := "https:" ++ pyReplace url "t_thumb" "t_cover_big"

/-- `format_screenshot` inside `transform_igdb`. -/
def format_screenshot (url : String) : String :=
  "https:" ++ pyReplace url "t_thumb" "t_screenshot_med"

/-- The string a `Val` contributes to `transform_igdb`'s URL formatting; the
raw IGDB data carries these as strings. -/
def asStr : Val → String
  | .vstr s => s
  | _ => ""

/-- Helper for the list comprehensions of `transform_igdb`:
`[f(s["url"]) for s in items if s.get("url")]`. -/
def urlsOf (f : String → String) (items : List Val) : List Val :=
  items.filterMap fun s =>
    match s with
    | .vdict d =>
      match lookupK d "url" with
      | some u => if truthy u then some (.vstr (f (asStr u))) else none
      | none => none
    | _ => none

/-- Helper for `[item["name"] for item in raw[field] if item.get("name")]`. -/
def namesOf (items : List Val) : List Val :=
  items.filterMap fun s =>
    match s with
    | .vdict d =>
      match lookupK d "name" with
      | some u => if truthy u then some u else none
      | none => none
    | _ => none

/-- `transform_igdb(raw_game)`: the enrichment record built from one IGDB
candidate dict. -/
def transform_igdb (raw : Rec) : Rec :=
  let transformed : Rec :=
    [("id", getD raw "id" .vnull), ("name", getD raw "name" .vnull),
     ("summary", getD raw "summary" .vnull), ("storyline", getD raw "storyline" .vnull),
     ("total_rating", getD raw "total_rating" .vnull),
     ("first_release_date", getD raw "first_release_date" .vnull)]
  let transformed :=
    match lookupK raw "cover" with
    | some (.vdict c) =>
      match lookupK c "url" with
      | some u => if truthy u then setK transformed "cover_url" (.vstr (format_cover (asStr u)))
                  else transformed
      | none => transformed
    | _ => transformed
  let transformed :=
    match lookupK raw "screenshots" with
    | some (.vlist ss) => setK transformed "screenshots" (.vlist (urlsOf format_screenshot ss))
    | _ => transformed
  let transformed :=
    match lookupK raw "websites" with
    | some (.vlist ws) =>
      setK transformed "websites"
        (.vlist (ws.filterMap fun w =>
          match w with
          | .vdict d =>
            match lookupK d "url" with
            | some u => if truthy u then some u else none
            | none => none
          | _ => none))
    | _ => transformed
  let step := fun (t : Rec) (field : String) =>
    match lookupK raw field with
    | some (.vlist items) => setK t field (.vlist (namesOf items))
    | _ => t
  let transformed := step transformed "player_perspectives"
  let transformed := step transformed "game_engines"
  let transformed := step transformed "game_modes"
  let transformed := step transformed "genres"
  transformed

/-- `r.get("name", "") or ""` for an IGDB candidate (a dict in the response). -/
def candName : Val → String
  | .vdict d =>
    match lookupK d "name" with
    | some (.vstr s) => s
    | _ => ""
  | _ => ""

/-- `[str(p) for p in r.get("platforms", [])]` membership in the allow-list. -/
def pcPlatform : Val → Bool
  | .vdict d =>
    match lookupK d "platforms" with
    | some (.vlist l) => pcPlatformList l
    | _ => false
  | _ => false

/-- Audit reasons written by `append_skipped` (the reason strings of the
script, abstracted to their four classes; `confusing`/`nonPC` carry the
candidate name interpolated into the string). -/
inductive Reason where
  | confusing (candidate : String)
  | nonPC (candidate : String)
  | noStrictMatch
  | fetchErr (message : String)
deriving DecidableEq

/-- One `append_skipped(game, reason)` record (the `skipped_at` timestamp is
external wall-clock data and not modelled). -/
structure Skip where
  game : Rec
  reason : Reason

/-- Whether one IGDB candidate passes the strict acceptance of
`fetch_igdb_data`: normalized-name equality, not confusing, PC platform. -/
def passesStrict (title normalized_target : String) (r : Val) : Bool :=
  normalize_title (candName r) = normalized_target &&
  ¬ is_confusing_match title (candName r) && pcPlatform r

/-- The candidate loop of `fetch_igdb_data`. -/
def igdbLoop (title normalized_target : String) (gp_game : Rec) :
    List Val → List Skip → Option Rec × List Skip
  | [], skips => (none, skips ++ [⟨gp_game, .noStrictMatch⟩])
  | r :: rest, skips =>
    let cn := candName r
    if normalize_title cn = normalized_target then
      if is_confusing_match title cn then
        igdbLoop title normalized_target gp_game rest (skips ++ [⟨gp_game, .confusing cn⟩])
      else if ¬ pcPlatform r then
        igdbLoop title normalized_target gp_game rest (skips ++ [⟨gp_game, .nonPC cn⟩])
      else
        (some (transform_igdb (match r with | .vdict d => d | _ => [])), skips)
    else igdbLoop title normalized_target gp_game rest skips

/-- `fetch_igdb_data(title, normalized_target, gp_game)`, with the HTTP
response as explicit input: `.error e` is a raised exception (network or
parse), `.ok results` the decoded JSON list.  Returns the enrichment (`none`
models the empty dict `{}`) and the audit entries appended. -/
def fetch_igdb_data (title normalized_target : String) (gp_game : Rec)
    (response : Except String (List Val)) : Option Rec × List Skip :=
  match response with
  | .error e => (none, [⟨gp_game, .fetchErr e⟩])
  | .ok results => igdbLoop title normalized_target gp_game results []

/-! ### Datetimes (`datetime.fromisoformat` on the pipeline's formats) -/

/-- A parsed datetime: calendar fields plus an optional UTC-offset in
minutes (`None` for a naive datetime). -/
structure PyDT where
  year : Int
  month : Int
  day : Int
  hour : Int
  minute : Int
  second : Int
  offMin : Option Int
deriving DecidableEq

/-- Gregorian leap year. -/
def isLeap (y : Int) : Bool := (y % 4 = 0 && y % 100 ≠ 0) || y % 400 = 0

/-- Days in a Gregorian month. -/
def daysInMonth (y m : Int) : Int :=
  if m = 2 then (if isLeap y then 29 else 28)
  else if m = 4 || m = 6 || m = 9 || m = 11 then 30
  else 31

/-- Days since 1970-01-01 of a Gregorian date (civil-calendar conversion). -/
def daysFromCivil (y m d : Int) : Int :=
  let y := if m ≤ 2 then y - 1 else y
  let era := y.fdiv 400
  let yoe := y - era * 400
  let mp := (m + 9).emod 12
  let doy := (153 * mp + 2).fdiv 5 + d - 1
  let doe := yoe * 365 + yoe.fdiv 4 - yoe.fdiv 100 + doy
  era * 146097 + doe - 719468

/-- The UTC instant of a parsed datetime, in seconds since the epoch (a naive
datetime is read as UTC, which is how the pipeline's own timestamps are
written). -/
def utcSeconds (t : PyDT) : Int :=
  (daysFromCivil t.year t.month t.day) * 86400 + t.hour * 3600 + t.minute * 60 + t.second
    - (t.offMin.getD 0) * 60

/-- The calendar date of a datetime as `.date()` reads it (its own fields,
with no zone conversion). -/
def dateOf (t : PyDT) : Int × Int × Int := (t.year, t.month, t.day)

/-- One decimal digit. -/
def digitVal (c : Char) : Option Nat :=
  if 48 ≤ c.toNat ∧ c.toNat ≤ 57 then some (c.toNat - 48) else none

/-- Two-digit field. -/
def take2 : List Char → Option (Int × List Char)
  | a :: b :: r =>
    match digitVal a, digitVal b with
    | some x, some y => some (((10 * x + y : Nat) : Int), r)
    | _, _ => none
  | _ => none

/-- Four-digit field. -/
def take4 : List Char → Option (Int × List Char)
  | a :: b :: c :: d :: r =>
    match digitVal a, digitVal b, digitVal c, digitVal d with
    | some w, some x, some y, some z =>
      some (((1000 * w + 100 * x + 10 * y + z : Nat) : Int), r)
    | _, _, _, _ => none
  | _ => none

/-- The literal separator expected next. -/
def expectCh (c : Char) : List Char → Option (List Char)
  | d :: r => if d = c then some r else none
  | [] => none

/-- Optional `±HH:MM` offset at the end of the string. -/
def parseOffset : List Char → Option (Option Int)
  | [] => some none
  | c :: r =>
    if c = '+' || c = '-' then
      match take2 r with
      | some (h, r1) =>
        match expectCh ':' r1 with
        | some r2 =>
          match take2 r2 with
          | some (mi, r3) =>
            if r3.isEmpty && h ≤ 23 && mi ≤ 59 then
              some (some ((if c = '-' then -1 else 1) * (h * 60 + mi)))
            else none
          | none => none
        | none => none
      | none => none
    else none

/-- Optional `HH:MM[:SS]` time with trailing offset. -/
def parseTime (cs : List Char) : Option (Int × Int × Int × Option Int) :=
  match take2 cs with
  | some (h, r1) =>
    match expectCh ':' r1 with
    | some r2 =>
      match take2 r2 with
      | some (mi, r3) =>
        let rest :=
          match r3 with
          | ':' :: r4 =>
            match take2 r4 with
            | some (s, r5) => some (s, r5)
            | none => none
          | _ => some (0, r3)
        match rest with
        | some (s, r6) =>
          match parseOffset r6 with
          | some off => if h ≤ 23 && mi ≤ 59 && s ≤ 59 then some (h, mi, s, off) else none
          | none => none
        | none => none
      | none => none
    | none => none
  | none => none

/-- Model of `datetime.fromisoformat` restricted to the formats the pipeline
produces and consumes: `YYYY-MM-DD`, optionally followed by a one-character
separator and `HH:MM[:SS]` and an optional `±HH:MM` offset (no fractional
seconds).  Returns `none` where CPython raises `ValueError`. -/
def fromisoformat (s : String) : Option PyDT :=
  match take4 s.data with
  | some (y, r1) =>
    match expectCh '-' r1 with
    | some r2 =>
      match take2 r2 with
      | some (m, r3) =>
        match expectCh '-' r3 with
        | some r4 =>
          match take2 r4 with
          | some (d, r5) =>
            if 1 ≤ m && m ≤ 12 && 1 ≤ d && d ≤ daysInMonth y m then
              match r5 with
              | [] => some ⟨y, m, d, 0, 0, 0, none⟩
              | _ :: r6 =>
                match parseTime r6 with
                | some (h, mi, sec, off) => some ⟨y, m, d, h, mi, sec, off⟩
                | none => none
            else none
          | none => none
        | none => none
      | none => none
    | none => none
  | none => none

/-- `is_expiring_today(expiry_date)` with the evaluation day explicit:
`datetime.fromisoformat(expiry_date.replace("Z", "+00:00")).date() == today`,
`False` when parsing raises `ValueError`. -/
def is_expiring_today (expiry_date : String) (today : Int × Int × Int) : Bool :=
  match fromisoformat (pyReplace expiry_date "Z" "+00:00") with
  | some dt => dateOf dt = today
  | none => false

/-! ### The reconciliation pipeline (`main` and `send_expiry_reminders`)

External inputs of one run: the cleaned GamerPower offers (the output shape of
`fetch_gamerpower_games`), the previously persisted Firestore records, the
IGDB response per search title, and the current UTC wall-clock datetime.
Delivery of FCM messages is the external transport and is modelled as always
succeeding (the script only logs a failure). -/

/-- One cleaned offer as built by `fetch_gamerpower_games` (a six-key dict). -/
structure GpGame where
  gamerpower_id : Int
  title : String
  worth : String
  store : String
  expiry_date : String
  open_giveaway_url : Val

/-- The dict literal `games.append({...})` of `fetch_gamerpower_games`. -/
def GpGame.toRec (g : GpGame) : Rec :=
  [("gamerpower_id", .vint g.gamerpower_id), ("title", .vstr g.title),
   ("worth", .vstr g.worth), ("store", .vstr g.store),
   ("expiry_date", .vstr g.expiry_date), ("open_giveaway_url", g.open_giveaway_url)]

/-- `g["gamerpower_id"]` of a persisted record (well-formed records carry an
integer id; see `NodupKeys`-style hypotheses at the theorems). -/
def fsId (g : Rec) : Int :=
  match lookupK g "gamerpower_id" with
  | some (.vint n) => n
  | _ => 0

/-- `{g["gamerpower_id"]: g for g in games}.get(i)`: the last record wins, as
in a dict comprehension. -/
def fsMapGet (games : List Rec) (i : Int) : Option Rec :=
  games.reverse.find? fun g => fsId g = i

/-- Events decided by one run.  `newOffer` is a `send_fcm_notification` call
(payload `merged_game`), `reminder` a `send_expiry_reminders` message (payload
the enriched record); `expiringSoon` is the specification's urgent-expiry
event vocabulary, which lets theorems quantify over it. -/
inductive Event where
  | newOffer (gpId : Int) (payload : Rec)
  | reminder (gpId : Int) (payload : Rec)
  | expiringSoon (gpId : Int)

/-- Whether an event is a `NewOffer` for the given id. -/
def isNewOfferFor (i : Int) : Event → Bool
  | .newOffer j _ => j = i
  | _ => false

/-- Whether an event is the spec's `ExpiringSoon`. -/
def isExpSoonB : Event → Bool
  | .expiringSoon _ => true
  | _ => false

/-- How many `NewOffer` events a run emitted for one id. -/
def countNew (events : List Event) (i : Int) : Nat :=
  (events.filter (isNewOfferFor i)).length

/-- The expiry string of a record (`game["expiry_date"]`; well-formed records
store it as a string). -/
def expiryStrOf (g : Rec) : Option String :=
  match lookupK g "expiry_date" with
  | some (.vstr s) => some s
  | _ => none

/-- `is_expiring_today(game["expiry_date"])` on a record. -/
def recExpiringToday (g : Rec) (today : Int × Int × Int) : Bool :=
  match expiryStrOf g with
  | some s => is_expiring_today s today
  | none => false

/-- The guard of one `send_expiry_reminders` iteration: expiring today and the
previously persisted record's `reminder_sent` flag not truthy. -/
def reminderFires (today : Int × Int × Int) (firestore_games : List Rec) (g : Rec) : Bool :=
  recExpiringToday g today &&
  ¬ truthy (getD ((fsMapGet firestore_games (fsId g)).getD []) "reminder_sent" (.vbool false))

/-- The `game["reminder_sent"] = True` mutation of one reminder iteration. -/
def remUpdate (today : Int × Int × Int) (firestore_games : List Rec) (g : Rec) : Rec :=
  if reminderFires today firestore_games g then setK g "reminder_sent" (.vbool true) else g

/-- `send_expiry_reminders(games, firestore_games)`: the updated records (the
loop sets `game["reminder_sent"] = True` after sending) and the reminder
events, in iteration order. -/
def send_expiry_reminders (today : Int × Int × Int) (games firestore_games : List Rec) :
    List Rec × List Event :=
  (games.map (remUpdate today firestore_games),
   games.flatMap fun g =>
     if reminderFires today firestore_games g then [.reminder (fsId g) g] else [])

/-- The volatile always-refresh key set of both merge paths. -/
def volatileKeys : List String := ["expiry_date", "worth", "store", "open_giveaway_url"]

/-- The preserve-manual-edits merge of `main` (lines 389–398): iterate the
fresh merged record's items, refresh volatile keys, keep a present non-empty
existing value, else take the fresh value. -/
def mergePreserve (merged_game existing : Rec) : Rec :=
  merged_game.foldl
    (fun final kv =>
      if kv.1 ∈ volatileKeys then setK final kv.1 kv.2
      else
        match lookupK existing kv.1 with
        | some v => if ¬ emptyLike v then setK final kv.1 v else setK final kv.1 kv.2
        | none => setK final kv.1 kv.2)
    []

/-- The API-field-only refresh of `main` (lines 412–418): iterate the existing
record's keys, refresh the volatile ones that the feed record carries, keep
every other existing value. -/
def apiRefresh (existing gpRec : Rec) : Rec :=
  existing.foldl
    (fun merged kv =>
      if hasK gpRec kv.1 && kv.1 ∈ volatileKeys then setK merged kv.1 (getD gpRec kv.1 .vnull)
      else setK merged kv.1 kv.2)
    []

/-- `merge_game_data(gp_game, igdb_data)`. -/
def merge_game_data (gpRec idata : Rec) : Rec :=
  setK (dunion gpRec idata) "open_giveaway_url" (getD gpRec "open_giveaway_url" .vnull)

/-- The inputs of one `main` invocation. -/
structure RunInput where
  gp_games : List GpGame
  firestore_games : List Rec
  igdb : String → Except String (List Val)
  now : PyDT

/-- The outcome of one `main` invocation: the snapshot written to Firestore
(`none` on the two early returns, which write nothing), the notification
events, and the audit entries. -/
structure RunOutput where
  written : Option (List Rec)
  events : List Event
  skips : List Skip

/-- The ids persisted in Firestore (`{g["gamerpower_id"] for g in ...}`),
represented by its membership list. -/
def firestoreIds (inp : RunInput) : List Int := inp.firestore_games.map fsId

/-- `gp_id in added_ids`: in the current feed and not previously persisted. -/
def isNewGame (inp : RunInput) (gpId : Int) : Bool := ¬ (firestoreIds inp).contains gpId

/-- The `should_enrich` decision of the loop: a new id, or an existing record
with no IGDB `id`/`name`. -/
def shouldEnrich (inp : RunInput) (g : GpGame) : Bool :=
  isNewGame inp g.gamerpower_id ||
    match fsMapGet inp.firestore_games g.gamerpower_id with
    | some existing =>
      ¬ truthy (getD existing "id" .vnull) || ¬ truthy (getD existing "name" .vnull)
    | none => false

/-- The loop accumulator (`enriched_games`, the FCM sends, the audit log). -/
structure Acc where
  games : List Rec
  events : List Event
  skips : List Skip

/-- One iteration of the `for gp_game in gp_games` loop of `main`. -/
def processG (inp : RunInput) (acc : Acc) (g : GpGame) : Acc :=
  let gp_id := g.gamerpower_id
  let is_new_game := isNewGame inp gp_id
  if shouldEnrich inp g then
    let gp_norm := normalize_title g.title
    let fi := fetch_igdb_data g.title gp_norm g.toRec (inp.igdb g.title)
    match fi.1 with
    | some idata =>
      let merged_game := merge_game_data g.toRec idata
      let entry :=
        match fsMapGet inp.firestore_games gp_id with
        | some existing => mergePreserve merged_game existing
        | none => merged_game
      ⟨acc.games ++ [entry],
       acc.events ++ (if is_new_game then [.newOffer gp_id merged_game] else []),
       acc.skips ++ fi.2⟩
    | none => ⟨acc.games, acc.events, acc.skips ++ fi.2⟩
  else
    let existing := (fsMapGet inp.firestore_games gp_id).getD []
    ⟨acc.games ++ [apiRefresh existing g.toRec], acc.events, acc.skips⟩

/-- `MANUAL_GAMES` is the empty literal in the script. -/
def MANUAL_GAMES : List Rec := []

/-- Whether `added_ids` or `removed_ids` is non-empty (the negation of the
"no changes detected" early return). -/
def changesDetected (inp : RunInput) : Bool :=
  inp.gp_games.any (fun g => isNewGame inp g.gamerpower_id) ||
  (firestoreIds inp).any (fun i => ¬ (inp.gp_games.map GpGame.gamerpower_id).contains i)

/-- `main()` as a function of its external inputs: early-return without a
write when the feed is empty or no ids changed; otherwise enrich/merge each
offer, send new-offer notifications, send expiry reminders (mutating the
`reminder_sent` flags), prepend `MANUAL_GAMES` and write the snapshot. -/
def main_run (inp : RunInput) : RunOutput :=
  if inp.gp_games.isEmpty then ⟨none, [], []⟩
  else if ¬ changesDetected inp then ⟨none, [], []⟩
  else
    let acc := inp.gp_games.foldl (processG inp) ⟨[], [], []⟩
    let rem := send_expiry_reminders (dateOf inp.now) acc.games inp.firestore_games
    ⟨some (MANUAL_GAMES ++ rem.1), acc.events ++ rem.2, acc.skips⟩

/-! ### Snapshot diff (`added_ids` / `removed_ids`, spec §4.4) -/

/-- `added_ids = gp_ids - firestore_ids` (line 346). -/
def added_ids (previous current : Finset Int) : Finset Int := current \ previous

/-- `removed_ids = firestore_ids - gp_ids` (line 347). -/
def removed_ids (previous current : Finset Int) : Finset Int := previous \ current

/-- The retained partition of the spec's `DiffResult` contract
(`retained = previous ∩ current`); `main` keeps these ids implicitly by
iterating the current feed, and the spec completes the partition. -/
def retained_ids (previous current : Finset Int) : Finset Int := previous ∩ current

/-! ### Proof-side reformulations

Named projections of the definitions above, used to state and prove the
claims; each is definitionally a piece of the model. -/

/-- A per-key rebuild of a record: the common shape of both merge paths. -/
def buildF (f : String → Val → Val) (m : Rec) : Rec :=
  m.foldl (fun acc kv => setK acc kv.1 (f kv.1 kv.2)) []

/-- The per-key decision of `mergePreserve`. -/
def mergeVal (existing : Rec) (k : String) (v : Val) : Val :=
  if k ∈ volatileKeys then v
  else
    match lookupK existing k with
    | some w => if ¬ emptyLike w then w else v
    | none => v

/-- The per-key decision of `apiRefresh`. -/
def refreshVal (gpRec : Rec) (k : String) (v : Val) : Val :=
  if hasK gpRec k && k ∈ volatileKeys then getD gpRec k .vnull else v

/-- The enrichment result `fetch_igdb_data` yields for one offer in a run. -/
def fetchFor (inp : RunInput) (g : GpGame) : Option Rec :=
  (fetch_igdb_data g.title (normalize_title g.title) g.toRec (inp.igdb g.title)).1

/-- The snapshot entries one loop iteration appends. -/
def entryList (inp : RunInput) (g : GpGame) : List Rec :=
  (processG inp ⟨[], [], []⟩ g).games

/-- The notification events one loop iteration emits. -/
def eventList (inp : RunInput) (g : GpGame) : List Event :=
  (processG inp ⟨[], [], []⟩ g).events

/-- The audit entries one loop iteration appends. -/
def skipList (inp : RunInput) (g : GpGame) : List Skip :=
  (processG inp ⟨[], [], []⟩ g).skips

/-- A newly added feed offer whose catalog lookup will return no candidates. -/
def c1Offer : GpGame := ⟨1, "Alpha", "9.99", "Steam", "2099-01-01 00:00:00", .vstr "u"⟩

/-- Run: previous snapshot empty, one added offer, empty IGDB response. -/
def c1Input : RunInput := ⟨[c1Offer], [], fun _ => .ok [], ⟨2024, 1, 1, 12, 0, 0, none⟩⟩

/-- A feed offer whose catalog lookup succeeds. -/
def c1wOffer : GpGame := ⟨2, "Beta", "0.00", "Epic Games Store", "2099-06-01 00:00:00", .vstr "w"⟩

/-- A strict-matching PC candidate for `c1wOffer`. -/
def c1wCandidate : Val :=
  .vdict [("name", .vstr "Beta"), ("id", .vint 3), ("platforms", .vlist [.vint 6])]

/-- Run: one added offer with a successful enrichment. -/
def c1wInput : RunInput :=
  ⟨[c1wOffer], [], fun _ => .ok [c1wCandidate], ⟨2024, 1, 1, 12, 0, 0, none⟩⟩

/-- The snapshot `c1wInput` writes. -/
def c1wSnapshot : List Rec := ((main_run c1wInput).written).getD []

/-- A persisted record carrying a true `reminder_sent` flag but no IGDB
`id`/`name`, so the next run re-enriches it. -/
def c2Existing : Rec := [("gamerpower_id", .vint 1), ("reminder_sent", .vbool true)]

/-- A stale persisted record, present so the run detects a removal. -/
def c2Removed : Rec := [("gamerpower_id", .vint 2)]

/-- The feed offer matching `c2Existing`. -/
def c2Offer : GpGame := ⟨1, "Alpha", "9.99", "Steam", "2099-01-01 00:00:00", .vstr "u"⟩

/-- A strict-matching PC candidate for `c2Offer`. -/
def c2Candidate : Val :=
  .vdict [("name", .vstr "Alpha"), ("id", .vint 7), ("platforms", .vlist [.vint 6])]

/-- Run in which `c2Existing` goes through the full re-enrichment merge. -/
def c2Input : RunInput :=
  ⟨[c2Offer], [c2Existing, c2Removed], fun _ => .ok [c2Candidate], ⟨2024, 1, 1, 12, 0, 0, none⟩⟩

/-- An existing record used by the amended flag-preservation theorem. -/
def c2wExisting : Rec := [("gamerpower_id", .vint 5), ("reminder_sent", .vbool true)]

/-- A fresh merged record without a `reminder_sent` key. -/
def c2wMerged : Rec := [("title", .vstr "t")]

/-- An offer added and expiring in two hours, but on the next calendar day. -/
def c7Offer : GpGame := ⟨1, "Gamma", "1.00", "GoG", "2024-01-02 01:00:00", .vstr "v"⟩

/-- Run evaluated at 2024-01-01 23:00 UTC: `c7Offer` expires in two hours. -/
def c7Input : RunInput := ⟨[c7Offer], [], fun _ => .ok [], ⟨2024, 1, 1, 23, 0, 0, none⟩⟩

/-- An offer expiring on the evaluation day, with a matching candidate. -/
def c7wOffer : GpGame := ⟨1, "Delta", "1.00", "GoG", "2024-01-01 10:00:00", .vstr "v"⟩

/-- A strict-matching PC candidate for `c7wOffer`. -/
def c7wCandidate : Val :=
  .vdict [("name", .vstr "Delta"), ("id", .vint 9), ("platforms", .vlist [.vint 6])]

/-- Run in which a reminder fires for `c7wOffer`. -/
def c7wInput : RunInput :=
  ⟨[c7wOffer], [], fun _ => .ok [c7wCandidate], ⟨2024, 1, 1, 23, 0, 0, none⟩⟩

/-- The enriched record the `c7wInput` run produces for `c7wOffer`. -/
def c7wRecord : Rec := (c7wInput.gp_games.flatMap (entryList c7wInput)).headD []

/-- An added offer whose lookup yields no candidates (strict drop). -/
def c10Offer : GpGame := ⟨3, "Epsilon", "4.99", "Steam", "2099-01-01 00:00:00", .vstr "x"⟩

/-- Run for the strict-drop witness: the offer is dropped from the write. -/
def c10Input : RunInput := ⟨[c10Offer], [], fun _ => .ok [], ⟨2024, 1, 1, 12, 0, 0, none⟩⟩

/-! ## Lemmas: the dict model -/

theorem lookupK_setK_self (l : Rec) (k : String) (v : Val) :
    lookupK (setK l k v) k = some v := by
  induction l with
  | nil => simp [setK, lookupK]
  | cons kv rest ih =>
    obtain ⟨a, b⟩ := kv
    by_cases h : a = k
    · simp [setK, h, lookupK]
    · simp [setK, h, lookupK, ih]

theorem lookupK_setK_ne (l : Rec) (k k' : String) (v : Val) (h : k' ≠ k) :
    lookupK (setK l k v) k' = lookupK l k' := by
  have hk : k ≠ k' := Ne.symm h
  induction l with
  | nil => simp [setK, lookupK, hk]
  | cons kv rest ih =>
    obtain ⟨a, b⟩ := kv
    by_cases ha : a = k
    · subst ha
      simp [setK, lookupK, hk]
    · simp [setK, ha, lookupK, ih]

theorem lookupK_eq_none_iff (l : Rec) (k : String) :
    lookupK l k = none ↔ k ∉ keysOf l := by
  induction l with
  | nil => simp [lookupK, keysOf]
  | cons kv rest ih =>
    obtain ⟨a, b⟩ := kv
    by_cases h : a = k
    · subst h; simp [lookupK, keysOf]
    · simp [lookupK, h, keysOf, ih, Ne.symm h]

theorem keysOf_setK (l : Rec) (k : String) (v : Val) :
    keysOf (setK l k v) = if k ∈ keysOf l then keysOf l else keysOf l ++ [k] := by
  induction l with
  | nil => simp [setK, keysOf]
  | cons kv rest ih =>
    obtain ⟨a, b⟩ := kv
    by_cases h : a = k
    · subst h; simp [setK, keysOf]
    · simp only [setK, if_neg h, keysOf, List.map_cons] at ih ⊢
      rw [ih]
      by_cases hk : k ∈ List.map Prod.fst rest
      · simp [hk, List.mem_cons, Ne.symm h]
      · simp [hk, List.mem_cons, Ne.symm h]

theorem nodupKeys_setK (l : Rec) (k : String) (v : Val) (h : NodupKeys l) :
    NodupKeys (setK l k v) := by
  unfold NodupKeys at h ⊢
  rw [keysOf_setK]
  by_cases hk : k ∈ keysOf l
  · simpa [hk] using h
  · simp [hk, List.nodup_append, h]

theorem nodupKeys_dunion (a b : Rec) (h : NodupKeys a) : NodupKeys (dunion a b) := by
  induction b generalizing a with
  | nil => simpa [dunion] using h
  | cons kv rest ih =>
    simpa [dunion] using ih (setK a kv.1 kv.2) (nodupKeys_setK _ _ _ h)

theorem lookupK_dunion_ne (a b : Rec) (k : String) (hb : ∀ kv ∈ b, kv.1 ≠ k) :
    lookupK (dunion a b) k = lookupK a k := by
  induction b generalizing a with
  | nil => simp [dunion]
  | cons kv rest ih =>
    have h1 : kv.1 ≠ k := hb kv (List.mem_cons_self _ _)
    have h2 := ih (setK a kv.1 kv.2) (fun kv' h' => hb kv' (List.mem_cons_of_mem _ h'))
    have h3 := lookupK_setK_ne a kv.1 k kv.2 (Ne.symm h1)
    have h4 : dunion a (kv :: rest) = dunion (setK a kv.1 kv.2) rest := rfl
    rw [h4, h2, h3]

theorem mem_keysOf_setK (l : Rec) (k x : String) (v : Val)
    (h : x ∈ keysOf (setK l k v)) : x ∈ keysOf l ∨ x = k := by
  rw [keysOf_setK] at h
  by_cases hk : k ∈ keysOf l
  · simp [hk] at h; exact Or.inl h
  · simp [hk] at h; exact h

theorem fsMapGet_spec (gs : List Rec) (i : Int) (r : Rec) (h : fsMapGet gs i = some r) :
    fsId r = i ∧ r ∈ gs := by
  unfold fsMapGet at h
  have h1 := List.find?_some h
  have h2 := List.mem_of_find?_eq_some h
  exact ⟨by simpa using h1, by simpa using h2⟩

theorem fsMapGet_isSome (gs : List Rec) (i : Int) (h : i ∈ gs.map fsId) :
    (fsMapGet gs i).isSome := by
  unfold fsMapGet
  rw [List.find?_isSome]
  obtain ⟨r, hr, hid⟩ := List.mem_map.mp h
  exact ⟨r, by simpa using hr, by simp [hid]⟩

/-! ## Lemmas: the per-key rebuild `buildF` (both merge paths) -/

theorem buildF_go (f : String → Val → Val) (k : String) :
    ∀ (m acc : Rec), (∀ kv ∈ m, hasK acc kv.1 = false) → NodupKeys m →
      lookupK (m.foldl (fun acc kv => setK acc kv.1 (f kv.1 kv.2)) acc) k
        = match lookupK m k with
          | some v => some (f k v)
          | none => lookupK acc k := by
  intro m
  induction m with
  | nil => intro acc _ _; simp [lookupK]
  | cons kv rest ih =>
    intro acc hacc hnd
    obtain ⟨a, b⟩ := kv
    have hnd2 : (a :: List.map Prod.fst rest).Nodup := by
      unfold NodupKeys keysOf at hnd
      simpa using hnd
    have hnd' : NodupKeys rest := (List.nodup_cons.mp hnd2).2
    have hnotin : a ∉ keysOf rest := (List.nodup_cons.mp hnd2).1
    have hacc' : ∀ kv' ∈ rest, hasK (setK acc a (f a b)) kv'.1 = false := by
      intro kv' h'
      have h1 : hasK acc kv'.1 = false := hacc kv' (List.mem_cons_of_mem _ h')
      have h2 : kv'.1 ≠ a := by
        intro hh
        exact hnotin (hh ▸ (List.mem_map.mpr ⟨kv', h', rfl⟩))
      unfold hasK at h1 ⊢
      rw [lookupK_setK_ne _ _ _ _ h2]
      exact h1
    rw [List.foldl_cons, ih (setK acc a (f a b)) hacc' hnd']
    by_cases hk : a = k
    · subst hk
      have : lookupK rest a = none := (lookupK_eq_none_iff _ _).mpr hnotin
      simp [this, lookupK, lookupK_setK_self]
    · have : lookupK ((a, b) :: rest) k = lookupK rest k := by simp [lookupK, hk]
      rw [this, lookupK_setK_ne _ _ _ _ (fun hh => hk hh.symm)]

theorem lookupK_buildF (f : String → Val → Val) (m : Rec) (hm : NodupKeys m) (k : String) :
    lookupK (buildF f m) k
      = match lookupK m k with
        | some v => some (f k v)
        | none => none := by
  have := buildF_go f k m [] (by intro kv _; simp [hasK, lookupK]) hm
  simpa [buildF, lookupK] using this

theorem buildF_none (f : String → Val → Val) (m : Rec) (k : String)
    (h : lookupK m k = none) : lookupK (buildF f m) k = none := by
  unfold buildF
  have main : ∀ (m' acc : Rec), lookupK m' k = none → lookupK acc k = none →
      lookupK (m'.foldl (fun acc kv => setK acc kv.1 (f kv.1 kv.2)) acc) k = none := by
    intro m'
    induction m' with
    | nil => intro acc _ hacc; simpa using hacc
    | cons kv rest ih =>
      intro acc hm' hacc
      obtain ⟨a, b⟩ := kv
      have ha : a ≠ k := by
        intro hh
        simp [lookupK, hh] at hm'
      have hrest : lookupK rest k = none := by
        simpa [lookupK, ha] using hm'
      rw [List.foldl_cons]
      exact ih (setK acc a (f a b)) hrest
        (by rw [lookupK_setK_ne _ _ _ _ (fun hh => ha hh.symm)]; exact hacc)
  exact main m [] h (by simp [lookupK])

theorem mergePreserve_eq_build (m e : Rec) : mergePreserve m e = buildF (mergeVal e) m := by
  unfold mergePreserve buildF
  congr 1
  funext acc kv
  unfold mergeVal
  by_cases h : kv.1 ∈ volatileKeys
  · simp [h]
  · simp only [if_neg h]
    cases lookupK e kv.1 with
    | none => rfl
    | some w =>
      by_cases hw : emptyLike w
      · simp [hw]
      · simp [hw]

theorem apiRefresh_eq_build (e gp : Rec) : apiRefresh e gp = buildF (refreshVal gp) e := by
  unfold apiRefresh buildF
  congr 1
  funext acc kv
  unfold refreshVal
  by_cases h : hasK gp kv.1 && kv.1 ∈ volatileKeys
  · simp [h]
  · simp [h]

/-! ## Lemmas: record ids through the merge paths -/

theorem lookup_none_setK (t : Rec) (k' k : String) (v : Val)
    (h : lookupK t k' = none) (hk : k ≠ k') : lookupK (setK t k v) k' = none := by
  rw [lookupK_setK_ne t k k' v (Ne.symm hk)]; exact h

theorem lookupK_transform_gid (raw : Rec) :
    lookupK (transform_igdb raw) "gamerpower_id" = none := by
  unfold transform_igdb
  dsimp only
  repeat' split
  all_goals
    repeat' refine lookup_none_setK _ _ _ _ ?_ (by decide)
  all_goals simp [lookupK]

theorem nodupKeys_toRec (g : GpGame) : NodupKeys g.toRec := by
  unfold NodupKeys keysOf GpGame.toRec
  simp

theorem nodupKeys_merge_game_data (g : GpGame) (idata : Rec) :
    NodupKeys (merge_game_data g.toRec idata) :=
  nodupKeys_setK _ _ _ (nodupKeys_dunion _ _ (nodupKeys_toRec g))

theorem lookupK_mgd_gid (g : GpGame) (raw : Rec) :
    lookupK (merge_game_data g.toRec (transform_igdb raw)) "gamerpower_id"
      = some (.vint g.gamerpower_id) := by
  unfold merge_game_data
  rw [lookupK_setK_ne _ _ _ _ (by decide)]
  rw [lookupK_dunion_ne _ _ _ ?hb]
  · simp [GpGame.toRec, lookupK]
  case hb =>
    intro kv hkv hk
    have h1 := (lookupK_eq_none_iff (transform_igdb raw) "gamerpower_id").mp
      (lookupK_transform_gid raw)
    exact h1 (hk ▸ List.mem_map.mpr ⟨kv, hkv, rfl⟩)

theorem igdbLoop_cons (title nt : String) (gp : Rec) (r : Val) (rest : List Val)
    (skips : List Skip) :
    igdbLoop title nt gp (r :: rest) skips =
      if normalize_title (candName r) = nt then
        if is_confusing_match title (candName r) then
          igdbLoop title nt gp rest (skips ++ [⟨gp, .confusing (candName r)⟩])
        else if ¬ pcPlatform r then
          igdbLoop title nt gp rest (skips ++ [⟨gp, .nonPC (candName r)⟩])
        else (some (transform_igdb (match r with | .vdict d => d | _ => [])), skips)
      else igdbLoop title nt gp rest skips := rfl

theorem igdbLoop_some_transform (title nt : String) (gp : Rec) :
    ∀ (rs : List Val) (acc : List Skip) (idata : Rec),
      (igdbLoop title nt gp rs acc).1 = some idata → ∃ d, idata = transform_igdb d := by
  intro rs
  induction rs with
  | nil => intro acc idata h; simp [igdbLoop] at h
  | cons r rest ih =>
    intro acc idata h
    rw [igdbLoop_cons] at h
    by_cases h1 : normalize_title (candName r) = nt
    · rw [if_pos h1] at h
      by_cases h2 : is_confusing_match title (candName r) = true
      · rw [if_pos h2] at h
        exact ih _ _ h
      · rw [if_neg h2] at h
        by_cases h3 : pcPlatform r = true
        · rw [if_neg (by simpa using h3)] at h
          exact ⟨_, (Option.some_inj.mp h).symm⟩
        · rw [if_pos (by simpa using h3)] at h
          exact ih _ _ h
    · rw [if_neg h1] at h
      exact ih _ _ h

theorem fetch_some_transform (title nt : String) (gp : Rec)
    (resp : Except String (List Val)) (idata : Rec)
    (h : (fetch_igdb_data title nt gp resp).1 = some idata) :
    ∃ d, idata = transform_igdb d := by
  unfold fetch_igdb_data at h
  cases resp with
  | error e => simp at h
  | ok results => exact igdbLoop_some_transform title nt gp results [] idata h

theorem fsId_mergePreserve (merged existing : Rec) (i : Int)
    (hm : NodupKeys merged) (hg : lookupK merged "gamerpower_id" = some (.vint i))
    (hex : fsId existing = i) :
    fsId (mergePreserve merged existing) = i := by
  rw [mergePreserve_eq_build]
  unfold fsId at hex ⊢
  rw [lookupK_buildF _ _ hm, hg]
  dsimp only
  unfold mergeVal
  rw [if_neg (show ¬ ("gamerpower_id" ∈ volatileKeys) by decide)]
  cases hl : lookupK existing "gamerpower_id" with
  | none => simp
  | some w =>
    rw [hl] at hex
    by_cases hw : emptyLike w = true
    · simp [hw]
    · simp only [hw, Bool.not_eq_true, Bool.not_false, if_pos]
      exact hex

theorem fsId_apiRefresh (existing gp : Rec) (hex : NodupKeys existing) :
    fsId (apiRefresh existing gp) = fsId existing := by
  rw [apiRefresh_eq_build]
  unfold fsId
  rw [lookupK_buildF _ _ hex]
  cases hl : lookupK existing "gamerpower_id" with
  | none => simp
  | some w =>
    dsimp only
    unfold refreshVal
    rw [if_neg (show ¬ ((hasK gp "gamerpower_id" &&
      decide ("gamerpower_id" ∈ volatileKeys)) = true) by simp [volatileKeys])]

theorem fsId_remUpdate (today : Int × Int × Int) (fs : List Rec) (g : Rec) :
    fsId (remUpdate today fs g) = fsId g := by
  unfold remUpdate
  by_cases h : reminderFires today fs g = true
  · rw [if_pos h]
    unfold fsId
    rw [lookupK_setK_ne _ _ _ _ (by decide)]
  · rw [if_neg h]

/-! ## Lemmas: the `main` loop as per-offer contributions -/

theorem processG_char (inp : RunInput) (acc : Acc) (g : GpGame) :
    processG inp acc g =
      ⟨acc.games ++ entryList inp g, acc.events ++ eventList inp g,
       acc.skips ++ skipList inp g⟩ := by
  unfold entryList eventList skipList processG
  by_cases hse : shouldEnrich inp g = true
  · rw [if_pos hse, if_pos hse]
    dsimp only
    cases hfi : (fetch_igdb_data g.title (normalize_title g.title) g.toRec
        (inp.igdb g.title)).1 with
    | some idata =>
      cases hmap : fsMapGet inp.firestore_games g.gamerpower_id with
      | some existing => simp [hfi, hmap]
      | none => simp [hfi, hmap]
    | none => simp [hfi]
  · rw [if_neg hse, if_neg hse]
    simp

theorem foldl_processG (inp : RunInput) :
    ∀ (gs : List GpGame) (acc : Acc),
      gs.foldl (processG inp) acc =
        ⟨acc.games ++ gs.flatMap (entryList inp), acc.events ++ gs.flatMap (eventList inp),
         acc.skips ++ gs.flatMap (skipList inp)⟩ := by
  intro gs
  induction gs with
  | nil => intro acc; cases acc; simp
  | cons g rest ih =>
    intro acc
    rw [List.foldl_cons, processG_char, ih]
    simp

theorem eventList_char (inp : RunInput) (g : GpGame) :
    eventList inp g =
      if isNewGame inp g.gamerpower_id && (fetchFor inp g).isSome then
        [.newOffer g.gamerpower_id (merge_game_data g.toRec ((fetchFor inp g).getD []))]
      else [] := by
  unfold eventList processG fetchFor
  by_cases hse : shouldEnrich inp g = true
  · rw [if_pos hse]
    dsimp only
    cases hfi : (fetch_igdb_data g.title (normalize_title g.title) g.toRec
        (inp.igdb g.title)).1 with
    | some idata =>
      by_cases hnew : isNewGame inp g.gamerpower_id = true
      · cases hmap : fsMapGet inp.firestore_games g.gamerpower_id with
        | some existing => simp [hfi, hmap, hnew]
        | none => simp [hfi, hmap, hnew]
      · cases hmap : fsMapGet inp.firestore_games g.gamerpower_id with
        | some existing => simp [hfi, hmap, hnew]
        | none => simp [hfi, hmap, hnew]
    | none => simp [hfi]
  · rw [if_neg hse]
    have hnew : isNewGame inp g.gamerpower_id = false := by
      cases hn : isNewGame inp g.gamerpower_id with
      | true => exact absurd (by unfold shouldEnrich; rw [hn]; rfl) hse
      | false => rfl
    simp [hnew]

theorem entryList_fail (inp : RunInput) (g : GpGame)
    (hse : shouldEnrich inp g = true) (hf : fetchFor inp g = none) :
    entryList inp g = [] := by
  unfold entryList processG
  rw [if_pos hse]
  dsimp only
  unfold fetchFor at hf
  rw [hf]

theorem entryList_nonempty (inp : RunInput) (g : GpGame)
    (h : ¬ (shouldEnrich inp g = true ∧ fetchFor inp g = none)) :
    entryList inp g ≠ [] := by
  unfold entryList processG
  by_cases hse : shouldEnrich inp g = true
  · rw [if_pos hse]
    dsimp only
    cases hfi : (fetch_igdb_data g.title (normalize_title g.title) g.toRec
        (inp.igdb g.title)).1 with
    | some idata =>
      cases fsMapGet inp.firestore_games g.gamerpower_id with
      | some existing => simp
      | none => simp
    | none => exact absurd ⟨hse, by unfold fetchFor; rw [hfi]⟩ h
  · rw [if_neg hse]
    simp

theorem fsId_entryList (inp : RunInput) (g : GpGame)
    (hwf : ∀ r ∈ inp.firestore_games, NodupKeys r) :
    ∀ e ∈ entryList inp g, fsId e = g.gamerpower_id := by
  intro e he
  unfold entryList processG at he
  by_cases hse : shouldEnrich inp g = true
  · rw [if_pos hse] at he
    dsimp only at he
    cases hfi : (fetch_igdb_data g.title (normalize_title g.title) g.toRec
        (inp.igdb g.title)).1 with
    | some idata =>
      rw [hfi] at he
      obtain ⟨d, rfl⟩ := fetch_some_transform _ _ _ _ _ hfi
      cases hmap : fsMapGet inp.firestore_games g.gamerpower_id with
      | some existing =>
        rw [hmap] at he
        simp at he
        subst he
        exact fsId_mergePreserve _ _ _ (nodupKeys_merge_game_data g _)
          (lookupK_mgd_gid g d) (fsMapGet_spec _ _ _ hmap).1
      | none =>
        rw [hmap] at he
        simp at he
        subst he
        unfold fsId
        rw [lookupK_mgd_gid g d]
    | none =>
      rw [hfi] at he
      simp at he
  · rw [if_neg hse] at he
    simp at he
    subst he
    have hnew : isNewGame inp g.gamerpower_id = false := by
      cases hn : isNewGame inp g.gamerpower_id with
      | true => exact absurd (by unfold shouldEnrich; rw [hn]; rfl) hse
      | false => rfl
    have hmem : g.gamerpower_id ∈ inp.firestore_games.map fsId := by
      unfold isNewGame firestoreIds at hnew
      simpa using hnew
    obtain ⟨r, hr⟩ := Option.isSome_iff_exists.mp (fsMapGet_isSome _ _ hmem)
    rw [hr]
    obtain ⟨hid, hmemr⟩ := fsMapGet_spec _ _ _ hr
    simp only [Option.getD_some]
    rw [fsId_apiRefresh _ _ (hwf r hmemr), hid]


/-! ## Lemmas: the shape of one `main_run` -/

theorem main_run_eq (inp : RunInput) (hne : inp.gp_games.isEmpty = false)
    (hch : changesDetected inp = true) :
    main_run inp =
      ⟨some ((inp.gp_games.flatMap (entryList inp)).map
          (remUpdate (dateOf inp.now) inp.firestore_games)),
       inp.gp_games.flatMap (eventList inp) ++
         (inp.gp_games.flatMap (entryList inp)).flatMap
           (fun g => if reminderFires (dateOf inp.now) inp.firestore_games g
                     then [.reminder (fsId g) g] else []),
       inp.gp_games.flatMap (skipList inp)⟩ := by
  unfold main_run
  rw [if_neg (by simp [hne]), if_neg (by simp [hch])]
  rw [foldl_processG]
  simp [send_expiry_reminders, MANUAL_GAMES]

theorem main_run_written_some (inp : RunInput) (S : List Rec)
    (hw : (main_run inp).written = some S) :
    inp.gp_games.isEmpty = false ∧ changesDetected inp = true ∧
      S = (inp.gp_games.flatMap (entryList inp)).map
            (remUpdate (dateOf inp.now) inp.firestore_games) := by
  by_cases h1 : inp.gp_games.isEmpty = true
  · unfold main_run at hw
    rw [if_pos h1] at hw
    simp at hw
  · by_cases h2 : changesDetected inp = true
    · rw [main_run_eq inp (by simpa using h1) h2] at hw
      exact ⟨by simpa using h1, h2, (Option.some_inj.mp hw).symm⟩
    · unfold main_run at hw
      rw [if_neg h1, if_pos (by simpa using h2)] at hw
      simp at hw

/-! ## Lemmas: counting `NewOffer` events -/

theorem countNew_append (a b : List Event) (i : Int) :
    countNew (a ++ b) i = countNew a i + countNew b i := by
  simp [countNew, List.filter_append]

theorem countNew_reminders (t : Int × Int × Int) (fs : List Rec) (gs : List Rec) (i : Int) :
    countNew (gs.flatMap fun g =>
      if reminderFires t fs g then [Event.reminder (fsId g) g] else []) i = 0 := by
  unfold countNew
  rw [List.length_eq_zero]
  rw [List.filter_eq_nil_iff]
  intro e he
  obtain ⟨g, _, hg⟩ := List.mem_flatMap.mp he
  by_cases h : reminderFires t fs g = true
  · rw [if_pos h] at hg
    simp at hg
    subst hg
    simp [isNewOfferFor]
  · rw [if_neg h] at hg
    simp at hg

theorem countNew_eventList_ne (inp : RunInput) (g : GpGame) (i : Int)
    (h : g.gamerpower_id ≠ i) : countNew (eventList inp g) i = 0 := by
  rw [eventList_char]
  by_cases hc : (isNewGame inp g.gamerpower_id && (fetchFor inp g).isSome) = true
  · rw [if_pos hc]
    simp [countNew, isNewOfferFor, h]
  · rw [if_neg hc]
    simp [countNew]

theorem countNew_eventList_self (inp : RunInput) (g : GpGame) :
    countNew (eventList inp g) g.gamerpower_id
      = if isNewGame inp g.gamerpower_id && (fetchFor inp g).isSome then 1 else 0 := by
  rw [eventList_char]
  by_cases hc : (isNewGame inp g.gamerpower_id && (fetchFor inp g).isSome) = true
  · rw [if_pos hc, if_pos hc]
    simp [countNew, isNewOfferFor]
  · rw [if_neg hc, if_neg hc]
    simp [countNew]

theorem countNew_flatMap_zero (inp : RunInput) (gs : List GpGame) (i : Int)
    (h : ∀ g ∈ gs, g.gamerpower_id ≠ i) :
    countNew (gs.flatMap (eventList inp)) i = 0 := by
  induction gs with
  | nil => simp [countNew]
  | cons g rest ih =>
    rw [List.flatMap_cons, countNew_append]
    rw [countNew_eventList_ne inp g i (h g (List.mem_cons_self _ _)),
      ih (fun g' h' => h g' (List.mem_cons_of_mem _ h'))]

theorem countNew_loop (inp : RunInput) :
    ∀ (gs : List GpGame) (g : GpGame), g ∈ gs →
      (gs.map GpGame.gamerpower_id).Nodup →
      countNew (gs.flatMap (eventList inp)) g.gamerpower_id
        = if isNewGame inp g.gamerpower_id && (fetchFor inp g).isSome then 1 else 0 := by
  intro gs
  induction gs with
  | nil => intro g hg; simp at hg
  | cons gh rest ih =>
    intro g hg hnd
    rw [List.map_cons, List.nodup_cons] at hnd
    rw [List.flatMap_cons, countNew_append]
    rcases List.mem_cons.mp hg with rfl | hmem
    · have hrest : ∀ g2 ∈ rest, g2.gamerpower_id ≠ g.gamerpower_id := by
        intro g2 h2 h3
        exact hnd.1 (h3 ▸ List.mem_map.mpr ⟨g2, h2, rfl⟩)
      rw [countNew_eventList_self, countNew_flatMap_zero inp rest _ hrest]
      simp
    · have hne : gh.gamerpower_id ≠ g.gamerpower_id := by
        intro h3
        exact hnd.1 (h3 ▸ List.mem_map.mpr ⟨g, hmem, rfl⟩)
      rw [countNew_eventList_ne inp gh _ hne, ih g hmem hnd.2]
      simp

theorem isNewGame_eq_true_iff (inp : RunInput) (i : Int) :
    isNewGame inp i = true ↔ i ∉ inp.firestore_games.map fsId := by
  unfold isNewGame firestoreIds
  simp

theorem not_changes_not_new (inp : RunInput) (g : GpGame) (hg : g ∈ inp.gp_games)
    (h : changesDetected inp = false) : isNewGame inp g.gamerpower_id = false := by
  unfold changesDetected at h
  have h1 := (Bool.or_eq_false_iff.mp h).1
  rw [List.any_eq_false] at h1
  exact Bool.eq_false_iff.mpr (h1 g hg)

theorem countNew_main (inp : RunInput) (g : GpGame) (hg : g ∈ inp.gp_games)
    (hnd : (inp.gp_games.map GpGame.gamerpower_id).Nodup) :
    countNew (main_run inp).events g.gamerpower_id
      = if isNewGame inp g.gamerpower_id && (fetchFor inp g).isSome then 1 else 0 := by
  by_cases h1 : inp.gp_games.isEmpty = true
  · rw [List.isEmpty_iff] at h1
    rw [h1] at hg
    simp at hg
  · by_cases h2 : changesDetected inp = true
    · rw [main_run_eq inp (by simpa using h1) h2]
      dsimp only
      rw [countNew_append, countNew_reminders, countNew_loop inp inp.gp_games g hg hnd]
      simp
    · have hev : (main_run inp).events = [] := by
        unfold main_run
        rw [if_neg h1, if_pos (by simpa using h2)]
      rw [hev]
      rw [not_changes_not_new inp g hg (by simpa using h2)]
      simp [countNew]

/-! ## Lemmas: ids present in a written snapshot -/

theorem mem_written_ids (inp : RunInput) (S : List Rec)
    (hwf : ∀ r ∈ inp.firestore_games, NodupKeys r)
    (hw : (main_run inp).written = some S) (g : GpGame) (hg : g ∈ inp.gp_games)
    (hne : entryList inp g ≠ []) :
    g.gamerpower_id ∈ S.map fsId := by
  obtain ⟨_, _, hS⟩ := main_run_written_some inp S hw
  subst hS
  obtain ⟨e, he⟩ := List.exists_mem_of_ne_nil _ hne
  have hmem : e ∈ inp.gp_games.flatMap (entryList inp) :=
    List.mem_flatMap.mpr ⟨g, hg, he⟩
  have : remUpdate (dateOf inp.now) inp.firestore_games e ∈
      (inp.gp_games.flatMap (entryList inp)).map
        (remUpdate (dateOf inp.now) inp.firestore_games) :=
    List.mem_map.mpr ⟨e, hmem, rfl⟩
  refine List.mem_map.mpr ⟨_, this, ?_⟩
  rw [fsId_remUpdate, fsId_entryList inp g hwf e he]

theorem written_ids_from_feed (inp : RunInput) (S : List Rec)
    (hwf : ∀ r ∈ inp.firestore_games, NodupKeys r)
    (hw : (main_run inp).written = some S) :
    ∀ i ∈ S.map fsId, ∃ g ∈ inp.gp_games, g.gamerpower_id = i ∧ entryList inp g ≠ [] := by
  obtain ⟨_, _, hS⟩ := main_run_written_some inp S hw
  subst hS
  intro i hi
  obtain ⟨r, hr, hid⟩ := List.mem_map.mp hi
  obtain ⟨e, he, hre⟩ := List.mem_map.mp hr
  obtain ⟨g, hg, heg⟩ := List.mem_flatMap.mp he
  refine ⟨g, hg, ?_, List.ne_nil_of_mem heg⟩
  rw [← hid, ← hre, fsId_remUpdate, fsId_entryList inp g hwf e heg]


/-! ## Claim C5: the snapshot diff contract -/

/-- C5: for all previous and current id sets, including empty ones,
`added = current − previous`, `removed = previous − current`,
`retained = previous ∩ current`; the three partitions are pairwise disjoint
and their union is `previous ∪ current`. -/
theorem C5_diff_partition (previous current : Finset Int) :
    added_ids previous current = current \ previous ∧
    removed_ids previous current = previous \ current ∧
    retained_ids previous current = previous ∩ current ∧
    Disjoint (added_ids previous current) (removed_ids previous current) ∧
    Disjoint (added_ids previous current) (retained_ids previous current) ∧
    Disjoint (removed_ids previous current) (retained_ids previous current) ∧
    added_ids previous current ∪ removed_ids previous current ∪ retained_ids previous current
      = previous ∪ current := by
  refine ⟨rfl, rfl, rfl, ?_, ?_, ?_, ?_⟩
  · rw [Finset.disjoint_left]
    intro a ha hb
    simp [added_ids, removed_ids] at ha hb
    tauto
  · rw [Finset.disjoint_left]
    intro a ha hb
    simp [added_ids, retained_ids] at ha hb
    tauto
  · rw [Finset.disjoint_left]
    intro a ha hb
    simp [removed_ids, retained_ids] at ha hb
    tauto
  · ext a
    simp [added_ids, removed_ids, retained_ids]
    tauto

/-! ## Claim C8: the trademark-glyph folding test -/

/-- C8 (divergence witness): NFKD rewrites U+2122 to "TM" before the
trademark-strip regex runs, so the two spellings do not normalize to the same
key: the left side normalizes to "half life opposing forcetm". -/
theorem C8_eval :
    normalize_title "Half-Life: Opposing Force™" = "half life opposing forcetm" ∧
    normalize_title "half life opposing force" = "half life opposing force" ∧
    normalize_title "Half-Life: Opposing Force™" ≠ normalize_title "half life opposing force" := by
  refine ⟨rfl, rfl, ?_⟩
  decide

/-! ## Claim C3: the numeric-token rule of the classifier -/

/-- C3 (counterexample): the candidate "Portal 2" contains the numeric token
"2", absent from the source "Portal 3", yet the classifier returns `Match`,
not `Confusing` — the digit rule only fires when the source has no digits at
all. -/
theorem C3_counterexample :
    ((digitRuns (normalize_title "Portal 2").data).any
        (fun t => ¬ (digitRuns (normalize_title "Portal 3").data).contains t)) = true ∧
    classify "Portal 3" "Portal 2" [.vint 6] = .Match ∧
    classify "Portal 3" "Portal 2" [.vint 6] ≠ .Confusing := by
  refine ⟨by decide, by decide, by decide⟩

/-- C3 (amended): the digit rule fires exactly when the candidate's normalized
form contains some numeric token and the source's normalized form contains
none; in particular `classify("Portal", "Portal 2", {6}) = Confusing` holds. -/
theorem C3_amended (src cand : String) (platforms : List Val)
    (h1 : digitRuns (normalize_title cand).data ≠ [])
    (h2 : digitRuns (normalize_title src).data = []) :
    classify src cand platforms = .Confusing ∧
    classify "Portal" "Portal 2" [.vint 6] = .Confusing := by
  refine ⟨?_, by decide⟩
  have hc : is_confusing_match src cand = true := by
    unfold is_confusing_match
    rw [if_pos]
    simp [h1, h2, List.isEmpty_iff]
  unfold classify
  rw [if_pos hc]

/-- C3 amended, applied at a concrete pair with digits only on the candidate
side. -/
theorem C3_amended_witness :
    classify "Halo" "Halo 2" [] = .Confusing ∧
    classify "Portal" "Portal 2" [.vint 6] = .Confusing :=
  C3_amended "Halo" "Halo 2" [] (by decide) (by decide)

/-! ## Claim C1: exactly-once `NewOffer` -/

/-- C1 (counterexample): the offer id 1 is in the added partition of this run
(current feed, not previously persisted) and the run writes a snapshot, yet
zero `NewOffer` events fire, because the catalog lookup returned no
candidates; the id is also absent from the written snapshot. -/
theorem C1_counterexample :
    isNewGame c1Input 1 = true ∧
    c1Input.gp_games.map GpGame.gamerpower_id = [1] ∧
    (main_run c1Input).written = some [] ∧
    (main_run c1Input).events = [] := by
  exact ⟨rfl, rfl, rfl, rfl⟩

/-- C1 (amended): a `NewOffer` for an offer fires in a run exactly when the
id is in the added partition and its catalog enrichment succeeds (so an added
offer whose lookup fails is neither notified nor persisted); and re-running
the pipeline on the snapshot the run wrote, with the same feed and lookup
responses, emits zero further `NewOffer` events for that id. -/
theorem C1_amended (inp : RunInput) (g : GpGame)
    (hg : g ∈ inp.gp_games)
    (hnd : (inp.gp_games.map GpGame.gamerpower_id).Nodup)
    (hwf : ∀ r ∈ inp.firestore_games, NodupKeys r) :
    countNew (main_run inp).events g.gamerpower_id
        = (if isNewGame inp g.gamerpower_id && (fetchFor inp g).isSome then 1 else 0) ∧
    ∀ S, (main_run inp).written = some S →
      countNew (main_run { inp with firestore_games := S }).events g.gamerpower_id = 0 := by
  constructor
  · exact countNew_main inp g hg hnd
  · intro S hw
    rw [countNew_main { inp with firestore_games := S } g hg hnd]
    rw [if_neg]
    intro hcond
    rw [Bool.and_eq_true] at hcond
    obtain ⟨hnew, hsome⟩ := hcond
    have hsome2 : (fetchFor inp g).isSome = true := hsome
    have hne : entryList inp g ≠ [] := by
      apply entryList_nonempty
      rintro ⟨_, hfail⟩
      rw [hfail] at hsome2
      simp at hsome2
    have hmem := mem_written_ids inp S hwf hw g hg hne
    rw [isNewGame_eq_true_iff] at hnew
    exact hnew hmem

/-- C1 amended, applied to a run whose single added offer enriches
successfully: one `NewOffer` in the first run, none on the re-run. -/
theorem C1_amended_witness :
    countNew (main_run c1wInput).events c1wOffer.gamerpower_id = 1 ∧
    countNew (main_run { c1wInput with firestore_games := c1wSnapshot }).events
      c1wOffer.gamerpower_id = 0 := by
  have h := C1_amended c1wInput c1wOffer (List.mem_cons_self _ _) (by decide)
    (by intro r hr; exact absurd hr (List.not_mem_nil r))
  refine ⟨?_, h.2 c1wSnapshot rfl⟩
  rw [h.1]
  rfl

/-! ## Claim C10: the strict drop of unenrichable offers -/

/-- C10: an offer that goes through catalog enrichment in a run
(`should_enrich`) and whose lookup yields no acceptable enrichment is absent
from the snapshot written at the end of that run, even though its feed fields
are valid. -/
theorem C10_strict_drop (inp : RunInput) (g : GpGame) (S : List Rec)
    (hg : g ∈ inp.gp_games)
    (hnd : (inp.gp_games.map GpGame.gamerpower_id).Nodup)
    (hwf : ∀ r ∈ inp.firestore_games, NodupKeys r)
    (hse : shouldEnrich inp g = true)
    (hfail : fetchFor inp g = none)
    (hw : (main_run inp).written = some S) :
    g.gamerpower_id ∉ S.map fsId := by
  intro hmem
  obtain ⟨g2, hg2, hid, hne⟩ := written_ids_from_feed inp S hwf hw _ hmem
  have hgg : g2 = g := by
    have hinj := List.inj_on_of_nodup_map hnd
    exact hinj hg2 hg (by rw [hid])
  rw [hgg] at hne
  exact hne (entryList_fail inp g hse hfail)

/-- C10 applied to a run with one added offer whose lookup returns no
candidates: the written snapshot is empty. -/
theorem C10_strict_drop_witness : (3 : Int) ∉ (([] : List Rec).map fsId) := by
  have h := C10_strict_drop c10Input c10Offer []
    (by simp [c10Input]) (by simp [c10Input]) (by intro r hr; simp [c10Input] at hr)
    rfl rfl rfl
  simp [c10Input, c10Offer] at h
  simp [h]

/-! ## Claim C2: monotonicity of the notification flags -/

/-- C2 (counterexample): `c2Existing` carries `reminder_sent = True` and its
id 1 is carried into the next snapshot, but the full re-enrichment merge
iterates only the fresh record's keys, so the written record has no
`reminder_sent` binding at all — the true flag is lost. -/
theorem C2_counterexample :
    lookupK c2Existing "reminder_sent" = some (.vbool true) ∧
    ((main_run c2Input).written.getD []).map fsId = [1] ∧
    ((main_run c2Input).written.getD []).map (fun r => lookupK r "reminder_sent") = [none] := by
  exact ⟨rfl, rfl, rfl⟩

/-- C2 (amended): the API-field-only refresh preserves a true `reminder_sent`
flag (that path is monotonic), while the full re-enrichment merge keeps only
keys of the fresh merged record, so a flag present only in the existing
record is dropped. -/
theorem C2_amended (e m gp : Rec) (hn : NodupKeys e)
    (h1 : lookupK e "reminder_sent" = some (.vbool true))
    (h2 : lookupK m "reminder_sent" = none) :
    lookupK (apiRefresh e gp) "reminder_sent" = some (.vbool true) ∧
    lookupK (mergePreserve m e) "reminder_sent" = none := by
  constructor
  · rw [apiRefresh_eq_build, lookupK_buildF _ _ hn, h1]
    dsimp only
    unfold refreshVal
    rw [if_neg (show ¬ ((hasK gp "reminder_sent" &&
      decide ("reminder_sent" ∈ volatileKeys)) = true) by simp [volatileKeys])]
  · rw [mergePreserve_eq_build]
    exact buildF_none _ _ _ h2

/-- C2 amended, applied to concrete records. -/
theorem C2_amended_witness :
    lookupK (apiRefresh c2wExisting []) "reminder_sent" = some (.vbool true) ∧
    lookupK (mergePreserve c2wMerged c2wExisting) "reminder_sent" = none :=
  C2_amended c2wExisting c2wMerged [] (by decide) rfl rfl

/-! ## Claim C4: the field-level merge contract -/

theorem main_events_no_expsoon (inp : RunInput) :
    (main_run inp).events.filter isExpSoonB = [] := by
  rw [List.filter_eq_nil_iff]
  intro e he
  by_cases h1 : inp.gp_games.isEmpty = true
  · unfold main_run at he
    rw [if_pos h1] at he
    simp at he
  · by_cases h2 : changesDetected inp = true
    · rw [main_run_eq inp (by simpa using h1) h2] at he
      dsimp only at he
      rcases List.mem_append.mp he with hl | hr
      · obtain ⟨g, _, hg⟩ := List.mem_flatMap.mp hl
        rw [eventList_char] at hg
        by_cases hc : (isNewGame inp g.gamerpower_id && (fetchFor inp g).isSome) = true
        · rw [if_pos hc] at hg
          simp at hg
          subst hg
          simp [isExpSoonB]
        · rw [if_neg hc] at hg
          simp at hg
      · obtain ⟨r, _, hrr⟩ := List.mem_flatMap.mp hr
        by_cases hf : reminderFires (dateOf inp.now) inp.firestore_games r = true
        · rw [if_pos hf] at hrr
          simp at hrr
          subst hrr
          simp [isExpSoonB]
        · rw [if_neg hf] at hrr
          simp at hrr
    · unfold main_run at he
      rw [if_neg h1, if_pos (by simpa using h2)] at he
      simp at he

theorem main_reminder_char (inp : RunInput) :
    ∀ e ∈ (main_run inp).events, ∀ i payload, e = .reminder i payload →
      recExpiringToday payload (dateOf inp.now) = true ∧
      ¬ truthy (getD ((fsMapGet inp.firestore_games i).getD []) "reminder_sent"
        (.vbool false)) = true := by
  intro e he i payload hrem
  subst hrem
  by_cases h1 : inp.gp_games.isEmpty = true
  · unfold main_run at he
    rw [if_pos h1] at he
    simp at he
  · by_cases h2 : changesDetected inp = true
    · rw [main_run_eq inp (by simpa using h1) h2] at he
      dsimp only at he
      rcases List.mem_append.mp he with hl | hr
      · obtain ⟨g, _, hg⟩ := List.mem_flatMap.mp hl
        rw [eventList_char] at hg
        by_cases hc : (isNewGame inp g.gamerpower_id && (fetchFor inp g).isSome) = true
        · rw [if_pos hc] at hg
          simp at hg
        · rw [if_neg hc] at hg
          simp at hg
      · obtain ⟨r, _, hrr⟩ := List.mem_flatMap.mp hr
        by_cases hf : reminderFires (dateOf inp.now) inp.firestore_games r = true
        · rw [if_pos hf] at hrr
          simp at hrr
          obtain ⟨hi, hp⟩ := hrr
          subst hi
          subst hp
          unfold reminderFires at hf
          rw [Bool.and_eq_true] at hf
          exact ⟨hf.1, by simpa using hf.2⟩
        · rw [if_neg hf] at hrr
          simp at hrr
    · unfold main_run at he
      rw [if_neg h1, if_pos (by simpa using h2)] at he
      simp at he

/-- C7 (counterexample): the offer expires in 7200 seconds (≤ 24 hours) at
the evaluation instant, its expiry parses, and no record carries any urgent
flag, yet the run emits no event at all — there is no `ExpiringSoon` path in
the code; only the calendar-day reminder exists. -/
theorem C7_counterexample :
    fromisoformat "2024-01-02 01:00:00" = some ⟨2024, 1, 2, 1, 0, 0, none⟩ ∧
    utcSeconds ⟨2024, 1, 2, 1, 0, 0, none⟩ - utcSeconds c7Input.now = 7200 ∧
    (main_run c7Input).events = [] ∧
    (main_run c7Input).written = some [] := by
  exact ⟨rfl, rfl, rfl, rfl⟩

theorem main_reminder_emits (inp : RunInput) (g : Rec)
    (hg : g ∈ inp.gp_games.flatMap (entryList inp))
    (hch : changesDetected inp = true)
    (hfires : reminderFires (dateOf inp.now) inp.firestore_games g = true) :
    Event.reminder (fsId g) g ∈ (main_run inp).events := by
  have hne : inp.gp_games.isEmpty = false := by
    obtain ⟨g0, hg0, _⟩ := List.mem_flatMap.mp hg
    cases hcase : inp.gp_games.isEmpty with
    | false => rfl
    | true =>
      rw [List.isEmpty_iff] at hcase
      rw [hcase] at hg0
      simp at hg0
  rw [main_run_eq inp hne hch]
  dsimp only
  refine List.mem_append.mpr (Or.inr ?_)
  refine List.mem_flatMap.mpr ⟨g, hg, ?_⟩
  rw [if_pos hfires]
  exact List.mem_singleton.mpr rfl

/-- C7 (amended): no run ever emits an `ExpiringSoon` event; an offer with no
parseable expiry never counts as expiring; and over the records the run's
merge loop produces, a reminder event is emitted exactly when the record's
expiry date equals the evaluation UTC date and the previously persisted
`reminder_sent` flag is not truthy — the third conjunct gives the
only-when direction for every emitted reminder, the fourth the emission of
the reminder for every processed record whose guard holds (in a run that
proceeds past the no-changes early return). -/
theorem C7_amended (inp : RunInput) (s : String) (d : Int × Int × Int)
    (hp : fromisoformat (pyReplace s "Z" "+00:00") = none) :
    (main_run inp).events.filter isExpSoonB = [] ∧
    is_expiring_today s d = false ∧
    (∀ e ∈ (main_run inp).events, ∀ i payload, e = .reminder i payload →
      recExpiringToday payload (dateOf inp.now) = true ∧
      ¬ truthy (getD ((fsMapGet inp.firestore_games i).getD []) "reminder_sent"
        (.vbool false)) = true) ∧
    (∀ g ∈ inp.gp_games.flatMap (entryList inp),
      recExpiringToday g (dateOf inp.now) = true →
      ¬ truthy (getD ((fsMapGet inp.firestore_games (fsId g)).getD []) "reminder_sent"
        (.vbool false)) = true →
      changesDetected inp = true →
      Event.reminder (fsId g) g ∈ (main_run inp).events) := by
  refine ⟨main_events_no_expsoon inp, ?_, main_reminder_char inp, ?_⟩
  · unfold is_expiring_today
    rw [hp]
  · intro g hg hexp hflag hch
    apply main_reminder_emits inp g hg hch
    unfold reminderFires
    rw [Bool.and_eq_true]
    refine ⟨hexp, ?_⟩
    simpa using hflag

/-- C7 amended, applied to a run in which a same-day reminder does fire: the
fourth conjunct forces the concrete reminder event into the run's output. -/
theorem C7_amended_witness :
    (main_run c7wInput).events.filter isExpSoonB = [] ∧
    is_expiring_today "garbage" (2024, 1, 1) = false ∧
    Event.reminder (fsId c7wRecord) c7wRecord ∈ (main_run c7wInput).events := by
  have h := C7_amended c7wInput "garbage" (2024, 1, 1) rfl
  refine ⟨h.1, h.2.1, ?_⟩
  apply h.2.2.2 c7wRecord ?_ rfl (by decide) rfl
  rw [show c7wInput.gp_games.flatMap (entryList c7wInput) = [c7wRecord] from rfl]
  exact List.mem_cons_self _ _

/-! ## Claim C9: audit entries for every failed enrichment -/

theorem igdbLoop_nopass (title nt : String) (gp : Rec) :
    ∀ (rs : List Val) (acc : List Skip),
      (∀ r ∈ rs, passesStrict title nt r = false) →
      (igdbLoop title nt gp rs acc).1 = none ∧
      Skip.mk gp .noStrictMatch ∈ (igdbLoop title nt gp rs acc).2 := by
  intro rs
  induction rs with
  | nil =>
    intro acc _
    exact ⟨rfl, List.mem_append.mpr (Or.inr (List.mem_singleton.mpr rfl))⟩
  | cons r rest ih =>
    intro acc h
    rw [igdbLoop_cons]
    by_cases h1 : normalize_title (candName r) = nt
    · rw [if_pos h1]
      by_cases h2 : is_confusing_match title (candName r) = true
      · rw [if_pos h2]
        exact ih _ (fun r2 hr2 => h r2 (List.mem_cons_of_mem _ hr2))
      · rw [if_neg h2]
        by_cases h3 : pcPlatform r = true
        · exact absurd (h r (List.mem_cons_self _ _))
            (by simp [passesStrict, h1, h2, h3])
        · rw [if_pos (by simpa using h3)]
          exact ih _ (fun r2 hr2 => h r2 (List.mem_cons_of_mem _ hr2))
    · rw [if_neg h1]
      exact ih _ (fun r2 hr2 => h r2 (List.mem_cons_of_mem _ hr2))

theorem igdbLoop_none_noMatch (title nt : String) (gp : Rec) :
    ∀ (rs : List Val) (acc : List Skip),
      (igdbLoop title nt gp rs acc).1 = none →
      Skip.mk gp .noStrictMatch ∈ (igdbLoop title nt gp rs acc).2 := by
  intro rs
  induction rs with
  | nil =>
    intro acc _
    exact List.mem_append.mpr (Or.inr (List.mem_singleton.mpr rfl))
  | cons r rest ih =>
    intro acc h
    rw [igdbLoop_cons] at h ⊢
    by_cases h1 : normalize_title (candName r) = nt
    · rw [if_pos h1] at h ⊢
      by_cases h2 : is_confusing_match title (candName r) = true
      · rw [if_pos h2] at h ⊢
        exact ih _ h
      · rw [if_neg h2] at h ⊢
        by_cases h3 : pcPlatform r = true
        · rw [if_neg (by simpa using h3)] at h
          simp at h
        · rw [if_pos (by simpa using h3)] at h ⊢
          exact ih _ h
    · rw [if_neg h1] at h ⊢
      exact ih _ h

/-- C9: when no lookup candidate passes the strict check (normalized-name
equality, not confusing, PC platform) the matcher records a no-match
`SkippedEntry` and returns no enrichment; a per-query lookup failure records
a fetch-error `SkippedEntry`; and any offer for which enrichment fails has at
least one audit entry appended — none is dropped silently. -/
theorem C9_skip_audit (title normalized_target : String) (gp_game : Rec)
    (response : Except String (List Val)) :
    (∀ e, response = .error e →
      (fetch_igdb_data title normalized_target gp_game response).1 = none ∧
      Skip.mk gp_game (.fetchErr e) ∈
        (fetch_igdb_data title normalized_target gp_game response).2) ∧
    (∀ results, response = .ok results →
      (∀ r ∈ results, passesStrict title normalized_target r = false) →
      (fetch_igdb_data title normalized_target gp_game response).1 = none ∧
      Skip.mk gp_game .noStrictMatch ∈
        (fetch_igdb_data title normalized_target gp_game response).2) ∧
    ((fetch_igdb_data title normalized_target gp_game response).1 = none →
      (fetch_igdb_data title normalized_target gp_game response).2 ≠ []) := by
  refine ⟨?_, ?_, ?_⟩
  · intro e he
    subst he
    exact ⟨rfl, List.mem_singleton.mpr rfl⟩
  · intro results hres h
    subst hres
    exact igdbLoop_nopass title normalized_target gp_game results [] h
  · intro h
    cases response with
    | error e => simp [fetch_igdb_data]
    | ok results =>
      exact List.ne_nil_of_mem
        (igdbLoop_none_noMatch title normalized_target gp_game results [] h)

/-- C9 applied to an offer whose lookup returns no candidates. -/
theorem C9_skip_audit_witness :
    (fetch_igdb_data "T" "t" [] (.ok [])).1 = none ∧
    Skip.mk [] .noStrictMatch ∈ (fetch_igdb_data "T" "t" [] (.ok [])).2 :=
  (C9_skip_audit "T" "t" [] (.ok [])).2.1 [] rfl
    (by intro r hr; exact absurd hr (List.not_mem_nil r))


/-! ## Lemmas: the tokenizer `wordsBy` -/

theorem wordsBy_cons2 (p : Char → Bool) (c d : Char) (cs : List Char) :
    wordsBy p (c :: d :: cs) =
      if p c then wordsBy p (d :: cs)
      else
        match wordsBy p (d :: cs) with
        | [] => [[c]]
        | w :: ws => if p d then [c] :: w :: ws else (c :: w) :: ws := rfl

theorem wordsBy_sep (p : Char → Bool) (c : Char) (l : List Char) (h : p c = true) :
    wordsBy p (c :: l) = wordsBy p l := by
  cases l with
  | nil => simp [wordsBy, h]
  | cons d cs => rw [wordsBy_cons2, if_pos h]

theorem wordsBy_single_word (p : Char → Bool) :
    ∀ (w : List Char) (c : Char), p c = false → (∀ x ∈ w, p x = false) →
      wordsBy p (c :: w) = [c :: w] := by
  intro w
  induction w with
  | nil => intro c hc _; simp [wordsBy, hc]
  | cons d w2 ih =>
    intro c hc hw
    have hd : p d = false := hw d (List.mem_cons_self _ _)
    have hw2 : ∀ x ∈ w2, p x = false := fun x hx => hw x (List.mem_cons_of_mem _ hx)
    rw [wordsBy_cons2, if_neg (by simp [hc]), ih d hd hw2]
    simp [hd]

theorem wordsBy_word_sep (p : Char → Bool) :
    ∀ (w : List Char) (c s : Char) (rest : List Char),
      p c = false → (∀ x ∈ w, p x = false) → p s = true →
      wordsBy p (c :: (w ++ s :: rest)) = (c :: w) :: wordsBy p rest := by
  intro w
  induction w with
  | nil =>
    intro c s rest hc hw hs
    rw [List.nil_append, wordsBy_cons2, if_neg (by simp [hc]), wordsBy_sep p s rest hs]
    cases hrest : wordsBy p rest with
    | nil => simp [hs]
    | cons w2 ws => simp [hs]
  | cons d w2 ih =>
    intro c s rest hc hw hs
    have hd : p d = false := hw d (List.mem_cons_self _ _)
    have hw2 : ∀ x ∈ w2, p x = false := fun x hx => hw x (List.mem_cons_of_mem _ hx)
    have hih := ih d s rest hd hw2 hs
    rw [List.cons_append, wordsBy_cons2, if_neg (by simp [hc]), hih]
    simp [hd]

theorem intercalate_nil_char : List.intercalate [' '] ([] : List (List Char)) = [] := rfl

theorem intercalate_single (t : List Char) : List.intercalate [' '] [t] = t := by
  simp [List.intercalate]

theorem intercalate_cons2 (a b : List Char) (ts : List (List Char)) :
    List.intercalate [' '] (a :: b :: ts) =
      a ++ ' ' :: List.intercalate [' '] (b :: ts) := by
  simp [List.intercalate, List.intersperse]

theorem wordsBy_intercalate (ts : List (List Char))
    (h : ∀ t ∈ ts, t ≠ [] ∧ ∀ c ∈ t, isWs c = false) :
    wordsBy isWs (List.intercalate [' '] ts) = ts := by
  induction ts with
  | nil => rfl
  | cons t ts2 ih =>
    obtain ⟨hne, hchars⟩ := h t (List.mem_cons_self _ _)
    obtain ⟨c, w, rfl⟩ := List.exists_cons_of_ne_nil hne
    have hc : isWs c = false := hchars c (List.mem_cons_self _ _)
    have hw : ∀ x ∈ w, isWs x = false := fun x hx => hchars x (List.mem_cons_of_mem _ hx)
    cases ts2 with
    | nil => rw [intercalate_single, wordsBy_single_word isWs w c hc hw]
    | cons u us =>
      rw [intercalate_cons2, List.cons_append,
        wordsBy_word_sep isWs w c ' ' _ hc hw (by decide),
        show wordsBy isWs (List.intercalate [' '] (u :: us)) = u :: us from
          ih (fun t2 ht2 => h t2 (List.mem_cons_of_mem _ ht2))]

theorem wordsBy_mem (p : Char → Bool) :
    ∀ (l : List Char) (w : List Char), w ∈ wordsBy p l →
      w ≠ [] ∧ ∀ c ∈ w, p c = false ∧ c ∈ l := by
  intro l
  induction l with
  | nil => intro w hw; simp [wordsBy] at hw
  | cons c cs ih =>
    intro w hw
    cases cs with
    | nil =>
      by_cases hc : p c = true
      · simp [wordsBy, hc] at hw
      · rw [show wordsBy p [c] = [[c]] by simp [wordsBy, hc]] at hw
        simp at hw
        subst hw
        refine ⟨by simp, ?_⟩
        intro x hx
        simp at hx
        subst hx
        exact ⟨by simpa using hc, List.mem_singleton.mpr rfl⟩
    | cons d ds =>
      rw [wordsBy_cons2] at hw
      by_cases hc : p c = true
      · rw [if_pos hc] at hw
        obtain ⟨h1, h2⟩ := ih w hw
        exact ⟨h1, fun x hx => ⟨(h2 x hx).1, List.mem_cons_of_mem _ (h2 x hx).2⟩⟩
      · rw [if_neg hc] at hw
        cases htail : wordsBy p (d :: ds) with
        | nil =>
          rw [htail] at hw
          simp at hw
          subst hw
          refine ⟨by simp, ?_⟩
          intro x hx
          simp at hx
          subst hx
          exact ⟨by simpa using hc, List.mem_cons_self _ _⟩
        | cons w2 ws =>
          rw [htail] at hw
          dsimp only at hw
          by_cases hd : p d = true
          · rw [if_pos hd] at hw
            rcases List.mem_cons.mp hw with rfl | hw2
            · refine ⟨by simp, ?_⟩
              intro x hx
              simp at hx
              subst hx
              exact ⟨by simpa using hc, List.mem_cons_self _ _⟩
            · have := ih w (htail ▸ hw2)
              exact ⟨this.1, fun x hx =>
                ⟨(this.2 x hx).1, List.mem_cons_of_mem _ (this.2 x hx).2⟩⟩
          · rw [if_neg hd] at hw
            rcases List.mem_cons.mp hw with rfl | hw2
            · have hmem2 : w2 ∈ wordsBy p (d :: ds) := by rw [htail]; exact List.mem_cons_self _ _
              have h2 := ih w2 hmem2
              refine ⟨by simp, ?_⟩
              intro x hx
              rcases List.mem_cons.mp hx with rfl | hx2
              · exact ⟨by simpa using hc, List.mem_cons_self _ _⟩
              · exact ⟨(h2.2 x hx2).1, List.mem_cons_of_mem _ (h2.2 x hx2).2⟩
            · have hmem2 : w ∈ wordsBy p (d :: ds) := by
                rw [htail]; exact List.mem_cons_of_mem _ hw2
              have h2 := ih w hmem2
              exact ⟨h2.1, fun x hx =>
                ⟨(h2.2 x hx).1, List.mem_cons_of_mem _ (h2.2 x hx).2⟩⟩


/-! ## Lemmas: character facts for normalization -/

theorem toNat_ofNat_valid (n : Nat) (h : n.isValidChar) : (Char.ofNat n).toNat = n := by
  rw [Char.ofNat, dif_pos h]
  rfl

theorem lowerChar_toNat (a : Char) (h : 65 ≤ a.toNat ∧ a.toNat ≤ 90) :
    (lowerChar a).toNat = a.toNat + 32 := by
  unfold lowerChar
  rw [if_pos (by simp [h.1, h.2])]
  exact toNat_ofNat_valid _ (Or.inl (by omega))

theorem lowerChar_eq_self (a : Char) (h : ¬ (65 ≤ a.toNat ∧ a.toNat ≤ 90)) :
    lowerChar a = a := by
  unfold lowerChar
  rw [if_neg (by simpa using h)]

theorem lowerChar_out (a : Char) (h1 : a ≠ '™') (h2 : isCombiningMark a = false) :
    lowerChar a ≠ '™' ∧ isCombiningMark (lowerChar a) = false ∧
    lowerChar (lowerChar a) = lowerChar a := by
  by_cases hc : 65 ≤ a.toNat ∧ a.toNat ≤ 90
  · have hb := lowerChar_toNat a hc
    refine ⟨?_, ?_, ?_⟩
    · intro h
      have h3 := congrArg Char.toNat h
      rw [hb] at h3
      have h4 : Char.toNat '™' = 8482 := by decide
      omega
    · unfold isCombiningMark
      rw [hb]
      simp
      omega
    · apply lowerChar_eq_self
      rw [hb]
      omega
  · rw [lowerChar_eq_self a hc]
    exact ⟨h1, h2, lowerChar_eq_self a hc⟩

theorem nfkdChar_of_ne (c : Char) (h : c ≠ '™') : nfkdChar c = [c] := by
  unfold nfkdChar
  rw [if_neg h]

theorem mem_nfkd (l : List Char) : ∀ c ∈ nfkd l, c ≠ '™' := by
  intro c hc
  unfold nfkd at hc
  obtain ⟨a, _, hca⟩ := List.mem_flatMap.mp hc
  unfold nfkdChar at hca
  by_cases ha : a = '™'
  · rw [if_pos ha] at hca
    simp at hca
    rcases hca with rfl | rfl
    · decide
    · decide
  · rw [if_neg ha] at hca
    simp at hca
    subst hca
    exact ha

theorem mem_ampExpand (l : List Char) :
    ∀ c ∈ ampExpand l, (c ∈ l ∧ c ≠ '&') ∨ c ∈ (' ' :: 'a' :: 'n' :: 'd' :: [' ']) := by
  induction l with
  | nil => intro c hc; simp [ampExpand] at hc
  | cons a rest ih =>
    intro c hc
    unfold ampExpand at hc
    rcases List.mem_append.mp hc with h1 | h2
    · by_cases ha : a = '&'
      · rw [if_pos ha] at h1
        exact Or.inr h1
      · rw [if_neg ha] at h1
        simp at h1
        subst h1
        exact Or.inl ⟨List.mem_cons_self _ _, ha⟩
    · rcases ih c h2 with ⟨hm, hne⟩ | hs
      · exact Or.inl ⟨List.mem_cons_of_mem _ hm, hne⟩
      · exact Or.inr hs

theorem stage3_chars (l : List Char) :
    ∀ c ∈ ((nfkd l).filter (fun c => ¬ isCombiningMark c)).map lowerChar,
      c ≠ '™' ∧ isCombiningMark c = false ∧ lowerChar c = c := by
  intro c hc
  obtain ⟨a, ha, hca⟩ := List.mem_map.mp hc
  have hfa := List.mem_filter.mp ha
  have h1 : a ≠ '™' := mem_nfkd l a hfa.1
  have h2 : isCombiningMark a = false := by simpa using hfa.2
  rw [← hca]
  exact lowerChar_out a h1 h2

theorem preTokens_chars (l : List Char) :
    ∀ c ∈ preTokens l,
      c = ' ' ∨ (c ≠ '™' ∧ isCombiningMark c = false ∧ lowerChar c = c ∧ c ≠ '&' ∧
        isTmGlyph c = false ∧ isPunct c = false) := by
  intro c hc
  unfold preTokens at hc
  obtain ⟨b, hb, hcb⟩ := List.mem_map.mp hc
  by_cases hp : isPunct b = true
  · left
    rw [← hcb, if_pos hp]
  · right
    have hcb2 : c = b := by rw [← hcb, if_neg hp]
    subst hcb2
    have hb2 := List.mem_filter.mp hb
    have htm : isTmGlyph c = false := by simpa using hb2.2
    rcases mem_ampExpand _ c hb2.1 with ⟨hm, hamp⟩ | hs
    · have h3 := stage3_chars l c hm
      exact ⟨h3.1, h3.2.1, h3.2.2, hamp, htm, by simpa using hp⟩
    · simp at hs
      have hgood : c ≠ '™' ∧ isCombiningMark c = false ∧ lowerChar c = c ∧ c ≠ '&' := by
        rcases hs with rfl | rfl | rfl | rfl | rfl <;>
          exact ⟨by decide, by decide, by decide, by decide⟩
      exact ⟨hgood.1, hgood.2.1, hgood.2.2.1, hgood.2.2.2, htm, by simpa using hp⟩


/-! ## Lemmas: tokens of a normalized title -/

theorem roman_values_good : ∀ kv ∈ romanTable, GoodTok kv.2.data := by decide

theorem roman_values_not_keys :
    ∀ kv ∈ romanTable, romanTable.find? (fun kv2 => kv2.1.data = kv.2.data) = none := by
  decide

theorem tokenMap_good (t : List Char) (h : GoodTok t) : GoodTok (tokenMap t) := by
  unfold tokenMap
  cases hf : romanTable.find? (fun kv => kv.1.data = t) with
  | none => exact h
  | some kv => exact roman_values_good kv (List.mem_of_find?_eq_some hf)

theorem tokenMap_idem (t : List Char) : tokenMap (tokenMap t) = tokenMap t := by
  cases hf : romanTable.find? (fun kv => kv.1.data = t) with
  | none =>
    have h1 : tokenMap t = t := by unfold tokenMap; rw [hf]
    rw [h1, h1]
  | some kv =>
    have h1 : tokenMap t = kv.2.data := by unfold tokenMap; rw [hf]
    rw [h1]
    unfold tokenMap
    rw [roman_values_not_keys kv (List.mem_of_find?_eq_some hf)]

theorem normTokens_good (l : List Char) : ∀ t ∈ normTokens l, GoodTok t := by
  intro t ht
  unfold normTokens at ht
  obtain ⟨t0, ht0, rfl⟩ := List.mem_map.mp ht
  apply tokenMap_good
  have hprops := wordsBy_mem isWs (preTokens l) t0 ht0
  refine ⟨hprops.1, ?_⟩
  intro c hc
  obtain ⟨hws, hmem⟩ := hprops.2 c hc
  rcases preTokens_chars l c hmem with rfl | hgood
  · rw [show isWs ' ' = true by decide] at hws
    cases hws
  · exact ⟨hgood.1, hgood.2.1, hgood.2.2.1, hgood.2.2.2.1, hgood.2.2.2.2.1,
      hgood.2.2.2.2.2, hws⟩

theorem normTokens_ws_free (l : List Char) :
    ∀ t ∈ normTokens l, t ≠ [] ∧ ∀ c ∈ t, isWs c = false := by
  intro t ht
  exact ⟨(normTokens_good l t ht).1,
    fun c hc => ((normTokens_good l t ht).2 c hc).2.2.2.2.2.2⟩

/-! ## Lemmas: the character stages fix an already-normalized string -/

theorem nfkd_id (l : List Char) (h : ∀ c ∈ l, c ≠ '™') : nfkd l = l := by
  induction l with
  | nil => rfl
  | cons c cs ih =>
    unfold nfkd
    rw [List.flatMap_cons, nfkdChar_of_ne c (h c (List.mem_cons_self _ _))]
    have := ih (fun x hx => h x (List.mem_cons_of_mem _ hx))
    unfold nfkd at this
    rw [this]
    rfl

theorem ampExpand_id (l : List Char) (h : ∀ c ∈ l, c ≠ '&') : ampExpand l = l := by
  induction l with
  | nil => rfl
  | cons c cs ih =>
    unfold ampExpand
    rw [if_neg (h c (List.mem_cons_self _ _)), ih (fun x hx => h x (List.mem_cons_of_mem _ hx))]
    rfl

theorem map_id_on {α : Type} (f : α → α) (l : List α) (h : ∀ c ∈ l, f c = c) :
    l.map f = l := by
  induction l with
  | nil => rfl
  | cons c cs ih =>
    rw [List.map_cons, h c (List.mem_cons_self _ _),
      ih (fun x hx => h x (List.mem_cons_of_mem _ hx))]

theorem filter_id_on (p : Char → Bool) (l : List Char) (h : ∀ c ∈ l, p c = true) :
    l.filter p = l := by
  induction l with
  | nil => rfl
  | cons c cs ih =>
    rw [List.filter_cons, if_pos (h c (List.mem_cons_self _ _)),
      ih (fun x hx => h x (List.mem_cons_of_mem _ hx))]

theorem mem_intercalate_char (ts : List (List Char)) (c : Char)
    (h : c ∈ List.intercalate [' '] ts) : c = ' ' ∨ ∃ t ∈ ts, c ∈ t := by
  induction ts with
  | nil => cases h
  | cons t ts2 ih =>
    cases ts2 with
    | nil =>
      rw [intercalate_single] at h
      exact Or.inr ⟨t, List.mem_cons_self _ _, h⟩
    | cons u us =>
      rw [intercalate_cons2] at h
      rcases List.mem_append.mp h with h1 | h2
      · exact Or.inr ⟨t, List.mem_cons_self _ _, h1⟩
      · rcases List.mem_cons.mp h2 with rfl | h3
        · exact Or.inl rfl
        · rcases ih h3 with h4 | ⟨t2, ht2, hct2⟩
          · exact Or.inl h4
          · exact Or.inr ⟨t2, List.mem_cons_of_mem _ ht2, hct2⟩

theorem preTokens_id (ts : List (List Char)) (hts : ∀ t ∈ ts, GoodTok t) :
    preTokens (List.intercalate [' '] ts) = List.intercalate [' '] ts := by
  have hchars : ∀ c ∈ List.intercalate [' '] ts, c = ' ' ∨ GoodCh c := by
    intro c hc
    rcases mem_intercalate_char ts c hc with h | ⟨t, ht, hct⟩
    · exact Or.inl h
    · exact Or.inr ((hts t ht).2 c hct)
  have h1 : ∀ c ∈ List.intercalate [' '] ts, c ≠ '™' := by
    intro c hc
    rcases hchars c hc with rfl | hg
    · decide
    · exact hg.1
  have h2 : ∀ c ∈ List.intercalate [' '] ts,
      (fun c => ¬ isCombiningMark c : Char → Bool) c = true := by
    intro c hc
    rcases hchars c hc with rfl | hg
    · decide
    · simp [hg.2.1]
  have h3 : ∀ c ∈ List.intercalate [' '] ts, lowerChar c = c := by
    intro c hc
    rcases hchars c hc with rfl | hg
    · decide
    · exact hg.2.2.1
  have h4 : ∀ c ∈ List.intercalate [' '] ts, c ≠ '&' := by
    intro c hc
    rcases hchars c hc with rfl | hg
    · decide
    · exact hg.2.2.2.1
  have h5 : ∀ c ∈ List.intercalate [' '] ts,
      (fun c => ¬ isTmGlyph c : Char → Bool) c = true := by
    intro c hc
    rcases hchars c hc with rfl | hg
    · decide
    · simp [hg.2.2.2.2.1]
  have h6 : ∀ c ∈ List.intercalate [' '] ts,
      (fun c => if isPunct c then ' ' else c) c = c := by
    intro c hc
    rcases hchars c hc with rfl | hg
    · decide
    · simp [hg.2.2.2.2.2]
  unfold preTokens
  dsimp only
  rw [nfkd_id _ h1, filter_id_on _ _ h2, map_id_on _ _ h3, ampExpand_id _ h4,
    filter_id_on _ _ h5, map_id_on _ _ h6]

/-! ## Claim C6: idempotence of title normalization -/

theorem normalizeList_eq (l : List Char) :
    normalizeList l = List.intercalate [' '] (normTokens l) := by
  unfold normalizeList collapseWs
  rw [wordsBy_intercalate (normTokens l) (normTokens_ws_free l)]

theorem normalizeList_idem (l : List Char) :
    normalizeList (normalizeList l) = normalizeList l := by
  have hts := normTokens_good l
  rw [normalizeList_eq l]
  have h2 : normTokens (List.intercalate [' '] (normTokens l)) = normTokens l := by
    show (wordsBy isWs (preTokens (List.intercalate [' '] (normTokens l)))).map tokenMap
      = normTokens l
    rw [preTokens_id _ hts, wordsBy_intercalate _ (normTokens_ws_free l)]
    apply map_id_on
    intro t ht
    unfold normTokens at ht
    obtain ⟨t0, _, rfl⟩ := List.mem_map.mp ht
    exact tokenMap_idem t0
  show collapseWs (List.intercalate [' ']
    (normTokens (List.intercalate [' '] (normTokens l))))
    = List.intercalate [' '] (normTokens l)
  rw [h2]
  unfold collapseWs
  rw [wordsBy_intercalate _ (normTokens_ws_free l)]

/-- C6: `normalize_title` is idempotent: normalizing an already-normalized
title returns it unchanged, for every input string. -/
theorem C6_normalize_idempotent (s : String) :
    normalize_title (normalize_title s) = normalize_title s := by
  unfold normalize_title
  by_cases hs : s = ""
  · rw [if_pos hs]
    simp
  · rw [if_neg hs]
    by_cases h0 : String.mk (normalizeList s.data) = ""
    · rw [if_pos h0]
      exact h0.symm
    · rw [if_neg h0]
      show String.mk (normalizeList (normalizeList s.data)) = String.mk (normalizeList s.data)
      rw [normalizeList_idem]

end Freebies
